import Mathlib

/-!
# Verification of the drawnix document storage and delivery service

Shallow embedding of `scripts/unified-server.js` (the same path guard,
upload, list and read logic also appears verbatim in
`scripts/mock-upload-server.js`).  Paths are POSIX strings; the Node
`path.posix` routines used by the server (`resolve`, `relative`,
`basename`, `dirname`, `join`, `isAbsolute`) are embedded over the
character list of the string.  The storage root and every path the
server resolves against it are absolute (the configured root is produced
by `path.resolve`), so `resolve`/`relative` are embedded in their
absolute-argument form.
-/

namespace Mind

/-! ## POSIX path primitives -/

/-- Split a list of characters on `'/'`, keeping empty segments
(mirrors the segment scanning done by Node's `path.posix` routines). -/
def splitChars : List Char → List (List Char)
  | [] => [[]]
  | c :: rest =>
    if c = '/' then [] :: splitChars rest
    else
      match splitChars rest with
      | s :: ss => (c :: s) :: ss
      | [] => [[c]]

/-- One step of POSIX path normalization with `allowAboveRoot = false`
(the absolute-path case of Node's `normalizeString`): empty and `.`
segments are dropped, `..` pops the last segment (or is dropped at the
root), everything else is appended. -/
def normStep (stack : List (List Char)) (seg : List Char) : List (List Char) :=
  if seg = [] ∨ seg = ['.'] then stack
  else if seg = ['.', '.'] then stack.dropLast
  else stack ++ [seg]

/-- Join segments with `'/'`. -/
def joinChars : List (List Char) → List Char
  | [] => []
  | [s] => s
  | s :: rest => s ++ '/' :: joinChars rest

/-- Canonical segment list of a POSIX path string interpreted as absolute. -/
def absSegs (s : String) : List (List Char) :=
  (splitChars s.toList).foldl normStep []

/-- The canonical absolute path string with the given segments
(`"/"` for the empty list). -/
def mkAbs (segs : List (List Char)) : String :=
  String.mk ('/' :: joinChars segs)

/-- JavaScript string truthiness / `!!s`: a string is truthy iff nonempty. -/
def strIsEmpty (s : String) : Bool :=
  s.toList.isEmpty

/-- `s.startsWith(p)` on JavaScript strings. -/
def strStartsWith (s p : String) : Bool :=
  p.toList.isPrefixOf s.toList

/-- `s.endsWith(p)` on JavaScript strings. -/
def strEndsWith (s p : String) : Bool :=
  p.toList.isSuffixOf s.toList

/-- Node `path.posix.isAbsolute(p)`: nonempty and starting with `'/'`. -/
def isAbsolute (s : String) : Bool :=
  strStartsWith s "/"

/-- Node `path.posix.resolve(base, p)` where `base` is absolute (the
server only resolves against the absolute storage root or against paths
already derived from it by `resolve`). -/
def resolveAbs (base p : String) : String :=
  if isAbsolute p then mkAbs (absSegs p)
  else mkAbs (absSegs (base ++ "/" ++ p))

/-- Drop the common leading segments of two segment lists. -/
def dropCommon : List (List Char) → List (List Char) → List (List Char) × List (List Char)
  | a :: as, b :: bs => if a = b then dropCommon as bs else (a :: as, b :: bs)
  | as, bs => (as, bs)

/-- Segments of Node `path.posix.relative`: one `..` for every remaining
segment of `f` after the common prefix, then the remaining segments of `t`. -/
def relSegs (f t : List (List Char)) : List (List Char) :=
  let p := dropCommon f t
  List.replicate p.1.length ['.', '.'] ++ p.2

/-- Node `path.posix.relative(f, t)` for absolute arguments. -/
def relative (f t : String) : String :=
  String.mk (joinChars (relSegs (absSegs f) (absSegs t)))

/-- Node `path.posix.basename(p)` (no extension argument): the final
path segment, ignoring trailing slashes. -/
def basename (s : String) : String :=
  String.mk (((s.toList.reverse.dropWhile (· = '/')).takeWhile (· ≠ '/')).reverse)

/-- Node `path.posix.dirname(p)`: everything before the final path
segment, ignoring trailing slashes; `"/"` for root-only paths and `"."`
when there is no directory part. -/
def dirname (s : String) : String :=
  let cs := s.toList
  let hasRoot := cs.head? = some '/'
  let trimmed := (cs.reverse.dropWhile (· = '/')).reverse
  if trimmed.contains '/' then
    let pre := ((trimmed.reverse.dropWhile (· ≠ '/')).reverse).dropLast
    if pre = [] then (if hasRoot then "/" else ".") else String.mk pre
  else if hasRoot then "/" else "."

/-- `String(req.query.path || '').replace(/^\/+/, '')`: strip every
leading slash. -/
def stripLeadingSlashes (s : String) : String :=
  String.mk (s.toList.dropWhile (· = '/'))

/-- Node `path.posix.join(dir, name)` as used on an absolute `dir`. -/
def pathJoin (dir name : String) : String :=
  mkAbs (absSegs (dir ++ "/" ++ name))

/-! ## The path guard -/

/-- `isPathInside(parent, child)` from `scripts/unified-server.js`
(lines 38–41; identical in `scripts/mock-upload-server.js`):

`const rel = path.relative(parent, child);`
`return !!rel && !rel.startsWith('..') && !path.isAbsolute(rel);` -/
def isPathInside (parent child : String) : Bool :=
  let rel := relative parent child
  !strIsEmpty rel && !strStartsWith rel ".." && !isAbsolute rel

/-- Modelled from the spec (§4.1, §8): the normalized absolute form of
`p` is a strict descendant of `root`, i.e. the canonical segments of
`root` are a proper prefix of those of `p`. -/
def isStrictDescendant (root p : String) : Bool :=
  decide (absSegs root <+: absSegs p ∧ absSegs root ≠ absSegs p)

/-! ## JavaScript values (the upload body fields) -/

/-- The JSON/JavaScript values a request body field can carry in the
model (an absent property is `Option.none` = `undefined`). -/
inductive JVal where
  | str (s : String)
  | num (n : Int)
  | boolean (b : Bool)
  | null
deriving DecidableEq

/-- JavaScript truthiness of the modelled values. -/
def JVal.truthy : JVal → Bool
  | .str s => !strIsEmpty s
  | .num n => n ≠ 0
  | .boolean b => b
  | .null => false

/-- JavaScript `String(v)` for the modelled values. -/
def JVal.toStr : JVal → String
  | .str s => s
  | .num n => toString n
  | .boolean b => if b then "true" else "false"
  | .null => "null"

/-- `typeof v === 'string'`. -/
def JVal.isString : JVal → Bool
  | .str _ => true
  | _ => false

/-- `body.x || dflt` for a possibly absent body field. -/
def jOr (v : Option JVal) (dflt : JVal) : JVal :=
  match v with
  | some x => if x.truthy then x else dflt
  | none => dflt

/-! ## The filesystem model

A directory tree rooted at the storage root.  `readdir` with
`withFileTypes` reports a symbolic link as neither a directory nor a
regular file, so symlinks get their own constructor. -/

mutual
inductive FSTree where
  | file (content : String) (mtime : Nat) : FSTree
  | symlink (target : String) : FSTree
  | dir (entries : FSEntries) : FSTree
inductive FSEntries where
  | nil : FSEntries
  | cons (name : String) (child : FSTree) (rest : FSEntries) : FSEntries
end

/-- The entries of a directory as an association list. -/
def FSEntries.toList : FSEntries → List (String × FSTree)
  | .nil => []
  | .cons n t r => (n, t) :: FSEntries.toList r

/-- Find the entry with the given name. -/
def FSEntries.lookup : FSEntries → String → Option FSTree
  | .nil, _ => none
  | .cons n t r, key => if n = key then some t else FSEntries.lookup r key

/-- Replace the entry with the given name, or append a new one. -/
def FSEntries.setEntry : FSEntries → String → FSTree → FSEntries
  | .nil, key, v => .cons key v .nil
  | .cons n t r, key, v =>
    if n = key then .cons n v r else .cons n t (FSEntries.setEntry r key v)

/-- `fsp.mkdir(dir, { recursive: true })` along a segment path relative
to the root of `t`: creates missing directories, succeeds on an existing
directory, and fails (`none`) when a path component exists as a file or
symlink. -/
def mkdirp (t : FSTree) : List String → Option FSTree
  | [] =>
    match t with
    | .dir es => some (.dir es)
    | _ => none
  | s :: rest =>
    match t with
    | .dir es =>
      match es.lookup s with
      | some sub => (mkdirp sub rest).map (fun sub' => .dir (es.setEntry s sub'))
      | none => (mkdirp (.dir .nil) rest).map (fun sub' => .dir (es.setEntry s sub'))
    | _ => none

/-- `fsp.writeFile(target, content, 'utf8')` at a segment path relative
to the root of `t`: fully replaces an existing regular file or creates a
new entry; fails (`none`) when the target is a directory or symlink,
when a parent is missing or not a directory, or at the empty path. -/
def writeFileAt (t : FSTree) : List String → String → Nat → Option FSTree
  | [], _, _ => none
  | [name], content, now =>
    match t with
    | .dir es =>
      match es.lookup name with
      | none => some (.dir (es.setEntry name (.file content now)))
      | some (.file _ _) => some (.dir (es.setEntry name (.file content now)))
      | some _ => none
    | _ => none
  | s :: rest, content, now =>
    match t with
    | .dir es =>
      match es.lookup s with
      | some sub => (writeFileAt sub rest content now).map (fun sub' => .dir (es.setEntry s sub'))
      | none => none
    | _ => none

/-- `fsp.readFile(abs, 'utf8')` at a segment path relative to the root
of `t`: the content of the regular file there, `none` on anything else
(absent entry, directory, symlink — any read error). -/
def readFileAt (t : FSTree) : List String → Option String
  | [] =>
    match t with
    | .file c _ => some c
    | _ => none
  | s :: rest =>
    match t with
    | .dir es =>
      match es.lookup s with
      | some sub => readFileAt sub rest
      | none => none
    | _ => none

/-- The segment path of `p` below `base` (both absolute): `some` exactly
when the canonical segments of `base` are a prefix of those of `p`. -/
def relToBase (base p : String) : Option (List String) :=
  let b := absSegs base
  let q := absSegs p
  if b <+: q then some ((q.drop b.length).map String.mk) else none

/-! ## The stored-document records and API results -/

/-- One entry of the `GET /files` response. -/
structure StoredDoc where
  name : String
  relativePath : String
  dir : String
  size : Nat
  mtime : Nat
deriving DecidableEq

/-- The outcome of one API request (constructor per error kind of the
error taxonomy, plus the three success shapes). -/
inductive ApiResult where
  | unauthorized
  | missingField (msg : String)
  | invalidPath
  | writeFailed
  | listFailed
  | notFound
  | uploadOk (path : String) (size : Nat)
  | filesOk (files : List StoredDoc)
  | fileOk (name relativePath content : String)
deriving DecidableEq

/-- The HTTP status each result is sent with. -/
def ApiResult.status : ApiResult → Nat
  | .unauthorized => 401
  | .missingField _ => 400
  | .invalidPath => 400
  | .writeFailed => 500
  | .listFailed => 500
  | .notFound => 404
  | .uploadOk _ _ => 200
  | .filesOk _ => 200
  | .fileOk _ _ _ => 200

/-! ## Access control -/

/-- `authCheck` from `scripts/unified-server.js` (lines 96–102):
`if (!REQ_TOKEN) return true;`
`const auth = req.get('authorization') || '';`
`const ok = auth === 'Bearer ' + REQ_TOKEN; ... return ok;` -/
def authCheck (reqToken : String) (authHeader : Option String) : Bool :=
  if strIsEmpty reqToken then true
  else (authHeader.getD "") = "Bearer " ++ reqToken

/-! ## The upload route -/

/-- The body of a `POST /upload` request (absent fields are `none`). -/
structure UploadBody where
  filename : Option JVal
  content : Option JVal
  dir : Option JVal

/-- The directory the upload resolves into:
`path.resolve(BASE_DIR, dir ? String(dir) : '')`. -/
def uploadTargetDir (baseDir : String) (dirv : JVal) : String :=
  resolveAbs baseDir (if dirv.truthy then dirv.toStr else "")

/-- The upload write target:
`path.resolve(targetDir, path.basename(filename))`. -/
def uploadTargetPath (baseDir : String) (filename : String) (dirv : JVal) : String :=
  resolveAbs (uploadTargetDir baseDir dirv) (basename filename)

/-- The string actually written: `String(body.content || '')`. -/
def uploadContentStr (content? : Option JVal) : String :=
  (jOr content? (.str "")).toStr

/-- The `POST /upload` handler of `scripts/unified-server.js`
(lines 112–138), as a function of the configuration, the request, the
filesystem under the storage root and the current time.  The final
fallback arm is dead code: once the path guard has passed, the target
lies below the root and `relToBase` succeeds. -/
def handleUpload (baseDir token : String) (authHeader : Option String)
    (body : UploadBody) (fs : FSTree) (now : Nat) : ApiResult × FSTree :=
  if !authCheck token authHeader then (.unauthorized, fs) else
  let filename := jOr body.filename (.str "")
  let dirv := jOr body.dir (.str "")
  if !filename.truthy || !filename.isString then (.missingField "filename required", fs) else
  let targetDir := uploadTargetDir baseDir dirv
  let targetPath := uploadTargetPath baseDir filename.toStr dirv
  if !isPathInside baseDir targetPath then (.invalidPath, fs) else
  match relToBase baseDir targetDir, relToBase baseDir targetPath with
  | some dirSegs, some pathSegs =>
    (match mkdirp fs dirSegs with
     | none => (.writeFailed, fs)
     | some fs1 =>
       match writeFileAt fs1 pathSegs (uploadContentStr body.content) now with
       | none => (.writeFailed, fs)
       | some fs2 =>
         (.uploadOk targetPath (uploadContentStr body.content).utf8ByteSize, fs2))
  | _, _ => (.writeFailed, fs)

/-! ## The list route -/

mutual
/-- `listDrawnixFiles(dir, base)` from `scripts/unified-server.js`
(lines 73–94; identical in `scripts/mock-upload-server.js`): recursively
walk `dir`, recursing into directory entries and collecting regular
files whose name ends with `.drawnix`; a symlink entry is neither a
directory nor a regular file for `readdir`'s `Dirent`, so it is
skipped. -/
def listDrawnixFiles (dirPath base : String) : FSTree → List StoredDoc
  | .dir es => listEntries dirPath base es
  | _ => []
/-- The per-entry loop body of `listDrawnixFiles`. -/
def listEntries (dirPath base : String) : FSEntries → List StoredDoc
  | .nil => []
  | .cons name sub rest =>
    (match sub with
     | .dir es => listDrawnixFiles (pathJoin dirPath name) base (.dir es)
     | .file content mtime =>
       if strEndsWith name ".drawnix" then
         let rel := relative base (pathJoin dirPath name)
         [{ name := name, relativePath := rel,
            dir := if dirname rel = "." then "" else dirname rel,
            size := content.utf8ByteSize, mtime := mtime }]
       else []
     | .symlink _ => []) ++ listEntries dirPath base rest
end

/-- The `GET /files` handler of `scripts/unified-server.js`
(lines 140–150): auth gate, `ensureDir(BASE_DIR)` (an `mkdir -p` of the
root, which fails when the root exists as a non-directory), then the
recursive listing; any error becomes `List failed` / 500. -/
def handleFiles (baseDir token : String) (authHeader : Option String)
    (fs : FSTree) : ApiResult × FSTree :=
  if !authCheck token authHeader then (.unauthorized, fs) else
  match mkdirp fs [] with
  | some fs1 => (.filesOk (listDrawnixFiles baseDir baseDir fs1), fs1)
  | none => (.listFailed, fs)

/-! ## The read route -/

/-- The `GET /file?path=` handler of `scripts/unified-server.js`
(lines 152–165): auth gate, leading-slash strip, emptiness check, resolve
against the root, path guard, then `readFile`; any read error becomes
`Not Found` / 404.  Reading performs no write, so the handler returns no
new filesystem.  The `none` fallback of `relToBase` is dead code once
the guard has passed. -/
def handleFile (baseDir token : String) (authHeader : Option String)
    (pathParam : Option String) (fs : FSTree) : ApiResult :=
  if !authCheck token authHeader then .unauthorized else
  let rel := stripLeadingSlashes (pathParam.getD "")
  if strIsEmpty rel then .missingField "path required" else
  let abs := resolveAbs baseDir rel
  if !isPathInside baseDir abs then .invalidPath else
  match relToBase baseDir abs with
  | some segs =>
    (match readFileAt fs segs with
     | some content => .fileOk (basename abs) rel content
     | none => .notFound)
  | none => .notFound

/-! ## Well-formedness of paths and trees -/

/-- A canonical path segment: nonempty, slash-free, not `.` and not `..`.
Normalization only ever outputs such segments, and `readdir` only ever
reports such entry names. -/
def ValidSeg (seg : List Char) : Prop :=
  seg ≠ [] ∧ seg ≠ ['.'] ∧ seg ≠ ['.', '.'] ∧ '/' ∉ seg

instance : DecidablePred ValidSeg := fun _ => by
  unfold ValidSeg; infer_instance

/-- Every segment of a canonical segment list is canonical. -/
def Canon (l : List (List Char)) : Prop :=
  ∀ seg ∈ l, ValidSeg seg

instance (l : List (List Char)) : Decidable (Canon l) := by
  unfold Canon; infer_instance

/-- A name `readdir` can report: a canonical path segment. -/
def ValidName (s : String) : Prop :=
  ValidSeg s.toList

instance : DecidablePred ValidName := fun _ => by
  unfold ValidName; infer_instance

/-- The entry names of a directory level. -/
def FSEntries.names : FSEntries → List String
  | .nil => []
  | .cons n _ r => n :: FSEntries.names r

mutual
/-- Well-formed filesystem: every entry name is a name `readdir` can
report and names are unique within each directory. -/
def FSTree.WF : FSTree → Prop
  | .dir es => FSEntries.WF es
  | _ => True
/-- Well-formedness of a directory level. -/
def FSEntries.WF : FSEntries → Prop
  | .nil => True
  | .cons n t r => ValidName n ∧ n ∉ FSEntries.names r ∧ FSTree.WF t ∧ FSEntries.WF r
end

/-- There is a regular file with content `c` and mtime `m` at the
(relative) segment path `p` below `t`. -/
inductive HasFile : FSTree → List String → String → Nat → Prop where
  | here (c : String) (m : Nat) : HasFile (.file c m) [] c m
  | step {es : FSEntries} {n : String} {sub : FSTree} {p : List String}
      {c : String} {m : Nat} :
      (n, sub) ∈ es.toList → HasFile sub p c m → HasFile (.dir es) (n :: p) c m

mutual
/-- The same tree with every symlink entry removed. -/
def FSTree.pruneSymlinks : FSTree → FSTree
  | .dir es => .dir (FSEntries.pruneSymlinks es)
  | t => t
/-- Remove symlink entries from a directory level. -/
def FSEntries.pruneSymlinks : FSEntries → FSEntries
  | .nil => .nil
  | .cons _ (.symlink _) r => FSEntries.pruneSymlinks r
  | .cons n t r => .cons n (FSTree.pruneSymlinks t) (FSEntries.pruneSymlinks r)
end

/-- The relative-path string of a segment path (segments joined by `/`). -/
def relJoin (p : List String) : String :=
  String.mk (joinChars (p.map String.toList))

mutual
/-- Segment-level view of the recursive walk: the (relative segment
path, content, mtime) triples of the regular `.drawnix` files below
`t`, each path extending the accumulated prefix `pre`. -/
def drawnixList (pre : List String) : FSTree → List (List String × String × Nat)
  | .dir es => drawnixEntries pre es
  | _ => []
/-- The per-entry loop body of `drawnixList`. -/
def drawnixEntries (pre : List String) : FSEntries → List (List String × String × Nat)
  | .nil => []
  | .cons name sub rest =>
    (match sub with
     | .dir es => drawnixList (pre ++ [name]) (.dir es)
     | .file content mtime =>
       if strEndsWith name ".drawnix" then [(pre ++ [name], content, mtime)] else []
     | .symlink _ => []) ++ drawnixEntries pre rest
end

/-- The `StoredDoc` the listing reports for the `.drawnix` file with
content `c` and mtime `m` at relative segment path `p`. -/
def mkDoc (p : List String) (c : String) (m : Nat) : StoredDoc :=
  { name := p.getLastD ""
    relativePath := relJoin p
    dir := if p.dropLast = [] then "" else relJoin p.dropLast
    size := c.utf8ByteSize
    mtime := m }

/-! ## Startup (the asset publisher) -/

/-- The observable startup events of `main` /
`buildFrontendIfNeeded` in `scripts/unified-server.js`. -/
inductive StartEvent where
  | buildStep
  | listen
  | exitProcess (code : Nat)
deriving DecidableEq

/-- `buildFrontendIfNeeded` (lines 47–71) followed by `app.listen`
(line 173), as the trace of startup events given the force-rebuild
flag, whether `dist/apps/web/index.html` exists, and the exit status of
the spawned build (`none` models a null status, e.g. death by signal):
`needBuild = FORCE_BUILD || !fs.existsSync(INDEX_HTML)`; on a non-zero
(or null) status, `process.exit(res.status || 1)` and the server never
listens. -/
def startServer (forceBuild indexExists : Bool) (buildStatus : Option Nat) :
    List StartEvent :=
  if forceBuild || !indexExists then
    match buildStatus with
    | some 0 => [.buildStep, .listen]
    | some n => [.buildStep, .exitProcess n]
    | none => [.buildStep, .exitProcess 1]
  else [.listen]

/-! ## Segment structure lemmas -/

theorem splitChars_ne_nil (cs : List Char) : splitChars cs ≠ [] := by
  induction cs with
  | nil => simp [splitChars]
  | cons c rest ih =>
    simp only [splitChars]
    split
    · simp
    · cases h : splitChars rest with
      | nil => exact absurd h ih
      | cons s ss => simp

theorem splitChars_no_slash (cs : List Char) : ∀ seg ∈ splitChars cs, '/' ∉ seg := by
  induction cs with
  | nil => simp [splitChars]
  | cons c rest ih =>
    simp only [splitChars]
    split
    · simpa using ih
    · rename_i hc
      cases h : splitChars rest with
      | nil => exact absurd h (splitChars_ne_nil rest)
      | cons s ss =>
        intro seg hseg
        rcases List.mem_cons.mp hseg with h1 | h1
        · subst h1
          intro hmem
          rcases List.mem_cons.mp hmem with h2 | h2
          · exact hc h2.symm
          · exact ih s (h ▸ List.mem_cons_self s ss) h2
        · exact ih seg (h ▸ List.mem_cons_of_mem s h1)

theorem splitChars_single (cs : List Char) (h : '/' ∉ cs) : splitChars cs = [cs] := by
  induction cs with
  | nil => simp [splitChars]
  | cons c rest ih =>
    simp only [splitChars]
    rw [if_neg (by intro hc; exact h (hc ▸ List.mem_cons_self c rest))]
    rw [ih (fun hm => h (List.mem_cons_of_mem c hm))]

theorem splitChars_append_slash (xs ys : List Char) :
    splitChars (xs ++ '/' :: ys) = splitChars xs ++ splitChars ys := by
  induction xs with
  | nil => simp [splitChars]
  | cons c rest ih =>
    simp only [List.cons_append, splitChars, List.append_eq]
    split
    · rw [ih]; rfl
    · rw [ih]
      cases h : splitChars rest with
      | nil => exact absurd h (splitChars_ne_nil rest)
      | cons s ss => simp

theorem joinChars_cons₂ (s t : List Char) (r : List (List Char)) :
    joinChars (s :: t :: r) = s ++ '/' :: joinChars (t :: r) := rfl

theorem splitChars_joinChars (l : List (List Char)) (hne : l ≠ [])
    (hsl : ∀ seg ∈ l, '/' ∉ seg) : splitChars (joinChars l) = l := by
  induction l with
  | nil => exact absurd rfl hne
  | cons s rest ih =>
    cases rest with
    | nil =>
      show splitChars (joinChars [s]) = [s]
      exact splitChars_single s (hsl s (List.mem_cons_self s []))
    | cons t r =>
      rw [joinChars_cons₂, splitChars_append_slash,
        splitChars_single s (hsl s (List.mem_cons_self s _)),
        ih (by simp) (fun seg hseg => hsl seg (List.mem_cons_of_mem s hseg))]
      rfl

theorem normStep_push (st : List (List Char)) (seg : List Char)
    (h1 : seg ≠ []) (h2 : seg ≠ ['.']) (h3 : seg ≠ ['.', '.']) :
    normStep st seg = st ++ [seg] := by
  unfold normStep
  rw [if_neg (by simp [h1, h2]), if_neg h3]

theorem foldl_normStep_canon (l : List (List Char)) (hc : Canon l) :
    ∀ acc, List.foldl normStep acc l = acc ++ l := by
  induction l with
  | nil => simp
  | cons s rest ih =>
    intro acc
    obtain ⟨h1, h2, h3, _⟩ := hc s (List.mem_cons_self s rest)
    rw [List.foldl_cons, normStep_push acc s h1 h2 h3,
      ih (fun seg hseg => hc seg (List.mem_cons_of_mem s hseg))]
    simp

theorem canon_normStep (st : List (List Char)) (seg : List Char)
    (hst : Canon st) (hseg : '/' ∉ seg) : Canon (normStep st seg) := by
  unfold normStep
  split
  · exact hst
  · split
    · exact fun s hs => hst s (List.dropLast_subset st hs)
    · rename_i hns hdd
      intro s hs
      rcases List.mem_append.mp hs with h | h
      · exact hst s h
      · rcases List.mem_singleton.mp h with rfl
        push_neg at hns
        exact ⟨hns.1, hns.2, hdd, hseg⟩

theorem canon_foldl_normStep (l : List (List Char)) (acc : List (List Char))
    (hacc : Canon acc) (hsl : ∀ seg ∈ l, '/' ∉ seg) :
    Canon (List.foldl normStep acc l) := by
  induction l generalizing acc with
  | nil => exact hacc
  | cons s rest ih =>
    rw [List.foldl_cons]
    exact ih (normStep acc s)
      (canon_normStep acc s hacc (hsl s (List.mem_cons_self s rest)))
      (fun seg hseg => hsl seg (List.mem_cons_of_mem s hseg))

theorem absSegs_canon (s : String) : Canon (absSegs s) :=
  canon_foldl_normStep _ [] (by intro seg h; simp at h) (splitChars_no_slash s.toList)

theorem mkAbs_toList (l : List (List Char)) : (mkAbs l).toList = '/' :: joinChars l := rfl

theorem absSegs_mkAbs (l : List (List Char)) (hc : Canon l) : absSegs (mkAbs l) = l := by
  unfold absSegs
  rw [mkAbs_toList]
  cases l with
  | nil => rfl
  | cons s rest =>
    have hsl : ∀ seg ∈ s :: rest, '/' ∉ seg := fun seg hseg => (hc seg hseg).2.2.2
    show List.foldl normStep [] (splitChars ('/' :: joinChars (s :: rest))) = s :: rest
    have : splitChars ('/' :: joinChars (s :: rest)) = [] :: splitChars (joinChars (s :: rest)) := by
      simp [splitChars]
    rw [this, splitChars_joinChars (s :: rest) (by simp) hsl, List.foldl_cons]
    show List.foldl normStep [] (s :: rest) = s :: rest
    exact foldl_normStep_canon (s :: rest) hc []

/-! ## `dropCommon` and `joinChars` lemmas -/

theorem dropCommon_nil_left (t : List (List Char)) : dropCommon [] t = ([], t) := by
  cases t <;> rfl

theorem dropCommon_append (f r : List (List Char)) : dropCommon f (f ++ r) = ([], r) := by
  induction f with
  | nil => exact dropCommon_nil_left r
  | cons a as ih => simpa [dropCommon] using ih

theorem dropCommon_cons_eq (a : List Char) (as bs : List (List Char)) :
    dropCommon (a :: as) (a :: bs) = dropCommon as bs := by
  simp [dropCommon]

theorem dropCommon_fst_nil (f : List (List Char)) :
    ∀ t, (dropCommon f t).1 = [] → t = f ++ (dropCommon f t).2 := by
  induction f with
  | nil => intro t _; rw [dropCommon_nil_left]; rfl
  | cons a as ih =>
    intro t h
    cases t with
    | nil => simp [dropCommon] at h
    | cons b bs =>
      by_cases hab : a = b
      · subst hab
        rw [dropCommon_cons_eq] at h ⊢
        rw [List.cons_append, ← ih bs h]
      · simp [dropCommon, hab] at h

theorem dropCommon_fst_of_prefix (f t : List (List Char)) (h : f <+: t) :
    (dropCommon f t).1 = [] := by
  obtain ⟨r, rfl⟩ := h
  rw [dropCommon_append]

theorem joinChars_ne_nil (h : List Char) (r : List (List Char)) (hne : h ≠ []) :
    joinChars (h :: r) ≠ [] := by
  cases r with
  | nil => simpa [joinChars]
  | cons t rs => simp [joinChars_cons₂]

theorem head_prefix_joinChars (x : List Char) (r : List (List Char)) :
    x <+: joinChars (x :: r) := by
  cases r with
  | nil => exact List.prefix_refl x
  | cons t rs => rw [joinChars_cons₂]; exact List.prefix_append x _

theorem dd_prefix_joinChars (h : List Char) (r : List (List Char))
    (h1 : h ≠ []) (h2 : h ≠ ['.']) :
    (['.', '.'] <+: joinChars (h :: r)) ↔ ['.', '.'] <+: h := by
  cases r with
  | nil => rfl
  | cons t rs =>
    rw [joinChars_cons₂]
    cases h with
    | nil => exact absurd rfl h1
    | cons c cs =>
      cases cs with
      | nil =>
        constructor
        · intro hpre
          exfalso
          rw [List.cons_append, List.nil_append, List.cons_prefix_cons] at hpre
          obtain ⟨-, hpre⟩ := hpre
          rw [List.cons_prefix_cons] at hpre
          exact absurd hpre.1 (by decide)
        · intro hpre
          exfalso
          have := hpre.length_le
          simp at this
      | cons c₂ cs₂ =>
        simp [List.cons_prefix_cons]

theorem slash_not_prefix_joinChars (l : List (List Char))
    (hl : ∀ s ∈ l, s ≠ [] ∧ '/' ∉ s) : ¬ ['/'] <+: joinChars l := by
  cases l with
  | nil => simp [joinChars]
  | cons h r =>
    obtain ⟨h1, h2⟩ := hl h (List.mem_cons_self h r)
    cases h with
    | nil => exact absurd rfl h1
    | cons c cs =>
      have hc : c ≠ '/' := fun hcc => h2 (hcc ▸ List.mem_cons_self c cs)
      intro hpre
      cases r with
      | nil =>
        simp only [joinChars] at hpre
        rw [List.cons_prefix_cons] at hpre
        exact hc hpre.1.symm
      | cons t rs =>
        rw [joinChars_cons₂, List.cons_append, List.cons_prefix_cons] at hpre
        exact hc hpre.1.symm

/-! ## The path-guard characterization -/

theorem strIsEmpty_mk (cs : List Char) : strIsEmpty (String.mk cs) = cs.isEmpty := rfl

theorem strStartsWith_mk_dd (cs : List Char) :
    strStartsWith (String.mk cs) ".." = ['.', '.'].isPrefixOf cs := rfl

theorem isAbsolute_mk (cs : List Char) :
    isAbsolute (String.mk cs) = ['/'].isPrefixOf cs := rfl

theorem isPrefixOf_eq_false_iff (l₁ l₂ : List Char) :
    l₁.isPrefixOf l₂ = false ↔ ¬ l₁ <+: l₂ := by
  rw [← List.isPrefixOf_iff_prefix]
  cases l₁.isPrefixOf l₂ <;> simp

theorem inside_chars_iff (f t : List (List Char)) (ht : Canon t) :
    (!strIsEmpty (String.mk (joinChars (relSegs f t))) &&
        !strStartsWith (String.mk (joinChars (relSegs f t))) ".." &&
        !isAbsolute (String.mk (joinChars (relSegs f t)))) = true ↔
      (f <+: t ∧ f ≠ t ∧ ¬ ['.', '.'] <+: (t.drop f.length).headI) := by
  rw [Bool.and_eq_true, Bool.and_eq_true, Bool.not_eq_true', Bool.not_eq_true',
    Bool.not_eq_true', and_assoc, strIsEmpty_mk, strStartsWith_mk_dd, isAbsolute_mk,
    List.isEmpty_eq_false, isPrefixOf_eq_false_iff, isPrefixOf_eq_false_iff]
  rcases hd : dropCommon f t with ⟨f', t'⟩
  have hrel : relSegs f t = List.replicate f'.length ['.', '.'] ++ t' := by
    simp [relSegs, hd]
  cases f' with
  | cons c f₁ =>
    constructor
    · rintro ⟨-, hdd, -⟩
      exact absurd (by
        rw [hrel, List.length_cons, List.replicate_succ, List.cons_append]
        exact head_prefix_joinChars _ _) hdd
    · rintro ⟨hpre, -, -⟩
      have := dropCommon_fst_of_prefix f t hpre
      rw [hd] at this
      simp at this
  | nil =>
    have hsplit : t = f ++ t' := by
      have := dropCommon_fst_nil f t (by rw [hd])
      rwa [hd] at this
    rw [hrel]
    simp only [List.length_nil, List.replicate_zero, List.nil_append]
    cases t' with
    | nil =>
      constructor
      · rintro ⟨hne, -, -⟩
        exact absurd rfl hne
      · rintro ⟨-, hne, -⟩
        exact absurd (hsplit.trans (List.append_nil f)) (fun h => hne h.symm)
    | cons h r =>
      obtain ⟨h1, h2, -, h4⟩ := ht h (hsplit ▸ List.mem_append_right f (List.mem_cons_self h r))
      have hdrop : (t.drop f.length).headI = h := by
        rw [hsplit, List.drop_left]; rfl
      constructor
      · rintro ⟨-, hdd, -⟩
        refine ⟨⟨h :: r, hsplit.symm⟩, ?_, ?_⟩
        · intro heq
          have := congrArg List.length heq
          rw [hsplit] at this
          simp at this
        · rw [hdrop]
          exact fun hc => hdd ((dd_prefix_joinChars h r h1 h2).mpr hc)
      · rintro ⟨-, -, hdd⟩
        rw [hdrop] at hdd
        refine ⟨joinChars_ne_nil h r h1, ?_, ?_⟩
        · exact fun hc => hdd ((dd_prefix_joinChars h r h1 h2).mp hc)
        · refine slash_not_prefix_joinChars (h :: r) ?_
          intro s hs
          obtain ⟨s1, -, -, s4⟩ := ht s (hsplit ▸ List.mem_append_right f hs)
          exact ⟨s1, s4⟩

theorem isPathInside_iff (parent child : String) :
    isPathInside parent child = true ↔
      (absSegs parent <+: absSegs child ∧ absSegs parent ≠ absSegs child ∧
        ¬ ['.', '.'] <+: ((absSegs child).drop (absSegs parent).length).headI) :=
  inside_chars_iff (absSegs parent) (absSegs child) (absSegs_canon child)

/-! ## Resolve and relative roundtrips -/

theorem toList_slash_concat (a b : String) :
    (a ++ "/" ++ b).toList = a.toList ++ '/' :: b.toList := by
  show ((a ++ "/") ++ b).data = a.data ++ '/' :: b.data
  rw [String.data_append, String.data_append, List.append_assoc]
  rfl

theorem absSegs_concat (a b : String) :
    absSegs (a ++ "/" ++ b) = (splitChars b.toList).foldl normStep (absSegs a) := by
  unfold absSegs
  rw [toList_slash_concat, splitChars_append_slash, List.foldl_append]

theorem absSegs_resolveAbs (a b : String) :
    absSegs (resolveAbs a b) =
      if isAbsolute b then absSegs b
      else (splitChars b.toList).foldl normStep (absSegs a) := by
  unfold resolveAbs
  split
  · rw [absSegs_mkAbs _ (absSegs_canon b)]
  · rw [absSegs_mkAbs _ (absSegs_canon _), absSegs_concat]

theorem isAbsolute_joinChars_canon (r : List (List Char)) (hr : Canon r) :
    isAbsolute (String.mk (joinChars r)) = false := by
  rw [isAbsolute_mk]
  rw [isPrefixOf_eq_false_iff]
  exact slash_not_prefix_joinChars r (fun s hs => ⟨(hr s hs).1, (hr s hs).2.2.2⟩)

theorem absSegs_relJoin_concat (a : String) (r : List (List Char)) (hr : Canon r) :
    absSegs (a ++ "/" ++ String.mk (joinChars r)) = absSegs a ++ r := by
  rw [absSegs_concat]
  show (splitChars (joinChars r)).foldl normStep (absSegs a) = absSegs a ++ r
  cases r with
  | nil =>
    show List.foldl normStep (absSegs a) [[]] = absSegs a ++ []
    simp [normStep]
  | cons h t =>
    rw [splitChars_joinChars (h :: t) (by simp) (fun s hs => (hr s hs).2.2.2)]
    exact foldl_normStep_canon (h :: t) hr (absSegs a)

theorem resolveAbs_relJoin (a : String) (r : List (List Char)) (hr : Canon r) :
    resolveAbs a (String.mk (joinChars r)) = mkAbs (absSegs a ++ r) := by
  unfold resolveAbs
  rw [if_neg (by rw [isAbsolute_joinChars_canon r hr]; simp)]
  rw [absSegs_relJoin_concat a r hr]

theorem relative_append (base : String) (r : List (List Char)) (hr : Canon r) :
    relative base (mkAbs (absSegs base ++ r)) = String.mk (joinChars r) := by
  unfold relative
  rw [absSegs_mkAbs _ (fun s hs => (List.mem_append.mp hs).elim
    (absSegs_canon base s) (hr s))]
  unfold relSegs
  rw [dropCommon_append]
  simp

theorem relToBase_append (base : String) (r : List (List Char)) (hr : Canon r) :
    relToBase base (mkAbs (absSegs base ++ r)) = some ((r.map String.mk)) := by
  unfold relToBase
  rw [absSegs_mkAbs _ (fun s hs => (List.mem_append.mp hs).elim
    (absSegs_canon base s) (hr s))]
  rw [if_pos ⟨r, rfl⟩, List.drop_left]

/-! ## C1: the path guard against the strict-descendant specification -/

/-- C1 (counterexample): the claimed equivalence "contains(root, p) is
true iff the normalized absolute form of p is a strict descendant of
root" fails at root `/a`, candidate `/a/..b`: `/a/..b` is a strict
descendant of `/a` (the segment `..b` is an ordinary name, not a
parent-directory reference), but the guard's string test
`rel.startsWith('..')` sees the relative path `..b` and rejects it. -/
theorem c1_counterexample :
    isStrictDescendant "/a" "/a/..b" = true ∧ isPathInside "/a" "/a/..b" = false := by
  decide

/-- C1 (amended): for absolute root and candidate, `isPathInside`
returns true iff the normalized absolute form of the candidate is a
strict descendant of the root AND the first segment of the relative
path does not itself begin with the two characters `..` (the code tests
`rel.startsWith('..')` on the string, not on a whole segment, so strict
descendants whose first relative segment merely begins with `..`, such
as `/a/..b` under `/a`, are also rejected).  In particular the guard
still returns false when the candidate equals the root. -/
theorem c1_amended (parent child : String)
    (hp : isAbsolute parent = true) (hc : isAbsolute child = true) :
    isPathInside parent child = true ↔
      (isStrictDescendant parent child = true ∧
        ¬ ['.', '.'] <+: ((absSegs child).drop (absSegs parent).length).headI) := by
  rw [isPathInside_iff, isStrictDescendant, decide_eq_true_eq, and_assoc]

/-- C1 witness: the amended equivalence applied at a concrete root and
candidate. -/
theorem c1_witness : isPathInside "/data/uploads" "/data/uploads/a/b.drawnix" = true :=
  (c1_amended "/data/uploads" "/data/uploads/a/b.drawnix" (by decide) (by decide)).mpr
    (by decide)

/-! ## C8: build-then-serve startup -/

/-- C8: at process start the external build step runs iff the
force-rebuild flag is set or the entry document is absent; the server
listens iff the build was skipped or exited zero, and then only after
the build event; a non-zero (or null) build status yields a fatal exit
with no listen event; with the entry document present and force-rebuild
unset the build step is never invoked. -/
theorem c8_build_gate (forceBuild indexExists : Bool) (buildStatus : Option Nat) :
    ((StartEvent.buildStep ∈ startServer forceBuild indexExists buildStatus) ↔
        (forceBuild = true ∨ indexExists = false)) ∧
    ((StartEvent.listen ∈ startServer forceBuild indexExists buildStatus) ↔
        ((forceBuild || !indexExists) = false ∨ buildStatus = some 0)) ∧
    ((forceBuild || !indexExists) = true → buildStatus ≠ some 0 →
        ∃ code, code ≠ 0 ∧
          startServer forceBuild indexExists buildStatus =
            [StartEvent.buildStep, StartEvent.exitProcess code]) ∧
    (forceBuild = false → indexExists = true →
        startServer forceBuild indexExists buildStatus = [StartEvent.listen]) ∧
    (StartEvent.listen ∈ startServer forceBuild indexExists buildStatus →
        startServer forceBuild indexExists buildStatus = [StartEvent.listen] ∨
        startServer forceBuild indexExists buildStatus =
          [StartEvent.buildStep, StartEvent.listen]) := by
  unfold startServer
  rcases buildStatus with _ | n
  · cases forceBuild <;> cases indexExists <;> simp
  · match n with
    | 0 => cases forceBuild <;> cases indexExists <;> simp
    | Nat.succ m =>
      cases forceBuild <;> cases indexExists <;> simp

/-- C8 witness: the skip conjunct applied at a concrete configuration
(entry document present, force-rebuild unset: no build step). -/
theorem c8_witness : startServer false true (some 0) = [StartEvent.listen] :=
  (c8_build_gate false true (some 0)).2.2.2.1 rfl rfl

/-! ## C4: the authorization gate -/

theorem strIsEmpty_iff (s : String) : strIsEmpty s = true ↔ s = "" := by
  cases s with
  | mk data =>
    rw [strIsEmpty_mk, List.isEmpty_iff]
    constructor
    · rintro rfl; rfl
    · intro h
      simpa using congrArg String.data h

/-- C4: with no token configured every request is authorized; with a
token configured a request is authorized exactly when the Authorization
header string-equals `Bearer <token>`; any unauthorized request makes
all three API routes answer 401 Unauthorized with the filesystem
untouched and no Document Store operation run. -/
theorem c4_auth_gate (baseDir token : String) (authHeader : Option String)
    (body : UploadBody) (pathParam : Option String) (fs : FSTree) (now : Nat) :
    (token = "" → authCheck token authHeader = true) ∧
    (token ≠ "" →
      (authCheck token authHeader = true ↔ authHeader.getD "" = "Bearer " ++ token)) ∧
    (authCheck token authHeader = false →
      handleUpload baseDir token authHeader body fs now = (.unauthorized, fs) ∧
      handleFiles baseDir token authHeader fs = (.unauthorized, fs) ∧
      handleFile baseDir token authHeader pathParam fs = .unauthorized) := by
  refine ⟨?_, ?_, ?_⟩
  · intro h
    rw [authCheck, if_pos ((strIsEmpty_iff token).mpr h)]
  · intro h
    rw [authCheck, if_neg (fun hc => h ((strIsEmpty_iff token).mp (by rw [hc])))]
    simp
  · intro h
    refine ⟨?_, ?_, ?_⟩
    · rw [handleUpload, h]; rfl
    · rw [handleFiles, h]; rfl
    · rw [handleFile, h]; rfl

/-- C4 witness: a request with no Authorization header against a
configured token is rejected on the read route, and the same request is
authorized when no token is configured. -/
theorem c4_witness :
    handleFile "/data/uploads" "secret" none (some "a.drawnix") (.dir .nil) =
        ApiResult.unauthorized ∧
      authCheck "" none = true := by
  constructor
  · exact ((c4_auth_gate "/data/uploads" "secret" none ⟨none, none, none⟩
      (some "a.drawnix") (.dir .nil) 0).2.2 (by decide)).2.2
  · exact (c4_auth_gate "/data/uploads" "" none ⟨none, none, none⟩
      none (.dir .nil) 0).1 rfl

/-! ## Handler support lemmas -/

theorem resolveAbs_eq_mkAbs (a b : String) :
    resolveAbs a b = mkAbs (absSegs (resolveAbs a b)) := by
  unfold resolveAbs
  split
  · rw [absSegs_mkAbs _ (absSegs_canon b)]
  · rw [absSegs_mkAbs _ (absSegs_canon _)]

theorem resolveAbs_empty (a : String) : resolveAbs a "" = mkAbs (absSegs a) := by
  have h := resolveAbs_relJoin a [] (by intro s hs; simp at hs)
  simpa using h

theorem resolveAbs_single (a s : String) (hs : ValidName s) :
    resolveAbs a s = mkAbs (absSegs a ++ [s.toList]) := by
  have h := resolveAbs_relJoin a [s.toList]
    (by intro seg hseg; rw [List.mem_singleton] at hseg; exact hseg ▸ hs)
  simpa using h

theorem isPathInside_append (base : String) (r : List (List Char)) (hr : Canon r)
    (hne : r ≠ []) (hdd : ¬ ['.', '.'] <+: r.headI) :
    isPathInside base (mkAbs (absSegs base ++ r)) = true := by
  rw [isPathInside_iff]
  rw [absSegs_mkAbs _ (fun s hs => (List.mem_append.mp hs).elim (absSegs_canon base s) (hr s))]
  refine ⟨⟨r, rfl⟩, ?_, ?_⟩
  · intro heq
    have := congrArg List.length heq
    rw [List.length_append] at this
    cases r with
    | nil => exact hne rfl
    | cons a l => simp at this
  · rwa [List.drop_left]

theorem stripLeadingSlashes_joinChars (r : List (List Char)) (hr : Canon r) :
    stripLeadingSlashes (String.mk (joinChars r)) = String.mk (joinChars r) := by
  unfold stripLeadingSlashes
  cases r with
  | nil => rfl
  | cons h t =>
    obtain ⟨h1, -, -, h4⟩ := hr h (List.mem_cons_self h t)
    cases h with
    | nil => exact absurd rfl h1
    | cons c cs =>
      have hc : ¬ c = '/' := fun hcc => h4 (hcc ▸ List.mem_cons_self c cs)
      have hj : joinChars ((c :: cs) :: t) = c :: (cs ++ if t = [] then [] else '/' :: joinChars t) := by
        cases t with
        | nil => simp [joinChars]
        | cons u us => simp [joinChars_cons₂]
      show String.mk ((joinChars ((c :: cs) :: t)).dropWhile (fun x => x = '/')) = _
      rw [hj, List.dropWhile_cons]
      simp [hc]

theorem strIsEmpty_joinChars (r : List (List Char)) (hr : Canon r) (hne : r ≠ []) :
    strIsEmpty (String.mk (joinChars r)) = false := by
  rw [strIsEmpty_mk, List.isEmpty_eq_false]
  cases r with
  | nil => exact absurd rfl hne
  | cons h t => exact joinChars_ne_nil h t (hr h (List.mem_cons_self h t)).1

theorem lookup_setEntry_self : ∀ (es : FSEntries) (k : String) (v : FSTree),
    FSEntries.lookup (es.setEntry k v) k = some v
  | .nil, k, v => by simp [FSEntries.setEntry, FSEntries.lookup]
  | .cons n t r, k, v => by
    by_cases h : n = k
    · subst h
      simp [FSEntries.setEntry, FSEntries.lookup]
    · simp [FSEntries.setEntry, FSEntries.lookup, h, lookup_setEntry_self r k v]

theorem writeFileAt_nil (t : FSTree) (c : String) (now : Nat) :
    writeFileAt t [] c now = none := by
  cases t <;> rfl

theorem writeFileAt_single (es : FSEntries) (k c : String) (now : Nat) :
    writeFileAt (.dir es) [k] c now =
      match es.lookup k with
      | none => some (.dir (es.setEntry k (.file c now)))
      | some (.file _ _) => some (.dir (es.setEntry k (.file c now)))
      | some _ => none := rfl

theorem writeFileAt_cons₂ (es : FSEntries) (s s₂ : String) (rest : List String)
    (c : String) (now : Nat) :
    writeFileAt (.dir es) (s :: s₂ :: rest) c now =
      match es.lookup s with
      | some sub =>
        (writeFileAt sub (s₂ :: rest) c now).map (fun sub' => .dir (es.setEntry s sub'))
      | none => none := rfl

theorem readFileAt_cons (es : FSEntries) (s : String) (rest : List String) :
    readFileAt (.dir es) (s :: rest) =
      match es.lookup s with
      | some sub => readFileAt sub rest
      | none => none := rfl

theorem writeFileAt_readFileAt :
    ∀ (segs : List String) (t : FSTree) (c : String) (now : Nat) (t' : FSTree),
      writeFileAt t segs c now = some t' → readFileAt t' segs = some c
  | [], t, c, now, t' => by
    intro h
    rw [writeFileAt_nil] at h
    cases h
  | [name], t, c, now, t' => by
    intro h
    cases t with
    | file c₀ m₀ => cases h
    | symlink tg => cases h
    | dir es =>
      rw [writeFileAt_single] at h
      have ht' : t' = .dir (es.setEntry name (.file c now)) := by
        rcases hl : es.lookup name with _ | sub
        · simp only [hl, Option.some_inj] at h
          exact h.symm
        · cases sub with
          | file c₁ m₁ =>
            simp only [hl, Option.some_inj] at h
            exact h.symm
          | symlink tg => simp [hl] at h
          | dir es₁ => simp [hl] at h
      subst ht'
      rw [readFileAt_cons, lookup_setEntry_self]
      rfl
  | s :: s₂ :: rest, t, c, now, t' => by
    intro h
    cases t with
    | file c₀ m₀ => cases h
    | symlink tg => cases h
    | dir es =>
      rw [writeFileAt_cons₂] at h
      rcases hl : es.lookup s with _ | sub
      · simp [hl] at h
      · simp only [hl] at h
        rcases hw : writeFileAt sub (s₂ :: rest) c now with _ | sub'
        · rw [hw] at h; simp at h
        · rw [hw] at h
          simp only [Option.map_some', Option.some_inj] at h
          subst h
          rw [readFileAt_cons, lookup_setEntry_self]
          exact writeFileAt_readFileAt (s₂ :: rest) sub c now sub' hw

theorem jOr_some (x dflt : JVal) : jOr (some x) dflt = if x.truthy then x else dflt := rfl

theorem jOr_none (dflt : JVal) : jOr none dflt = dflt := rfl

theorem uploadContentStr_none : uploadContentStr none = "" := rfl

theorem uploadContentStr_falsy (c : JVal) (h : c.truthy = false) :
    uploadContentStr (some c) = "" := by
  unfold uploadContentStr
  rw [jOr_some, h]
  rfl

theorem uploadContentStr_truthy (c : JVal) (h : c.truthy = true) :
    uploadContentStr (some c) = c.toStr := by
  unfold uploadContentStr
  rw [jOr_some, h]
  rfl

theorem uploadContentStr_str (X : String) : uploadContentStr (some (.str X)) = X := by
  rcases h : (JVal.str X).truthy with _ | _
  · rw [uploadContentStr_falsy _ h]
    have : strIsEmpty X = true := by
      have := h
      unfold JVal.truthy at this
      simpa using this
    exact ((strIsEmpty_iff X).mp this).symm
  · rw [uploadContentStr_truthy _ h]
    rfl

theorem handleUpload_ok_inv (baseDir token : String) (authHeader : Option String)
    (body : UploadBody) (fs : FSTree) (now : Nat) (p : String) (sz : Nat) (fs' : FSTree)
    (h : handleUpload baseDir token authHeader body fs now = (.uploadOk p sz, fs')) :
    authCheck token authHeader = true ∧
    p = uploadTargetPath baseDir (jOr body.filename (.str "")).toStr (jOr body.dir (.str "")) ∧
    isPathInside baseDir p = true ∧
    sz = (uploadContentStr body.content).utf8ByteSize ∧
    ∃ dirSegs pathSegs fs1,
      relToBase baseDir (uploadTargetDir baseDir (jOr body.dir (.str ""))) = some dirSegs ∧
      relToBase baseDir p = some pathSegs ∧
      mkdirp fs dirSegs = some fs1 ∧
      writeFileAt fs1 pathSegs (uploadContentStr body.content) now = some fs' := by
  simp only [handleUpload] at h
  split at h
  · simp at h
  · rename_i hauth
    split at h
    · simp at h
    · split at h
      · simp at h
      · rename_i hguard
        split at h
        · rename_i dirSegs pathSegs hdir hpath
          split at h
          · simp at h
          · rename_i fs1 hmk
            split at h
            · simp at h
            · rename_i fs2 hw
              rw [Prod.mk.injEq] at h
              obtain ⟨h1, h2⟩ := h
              rw [ApiResult.uploadOk.injEq] at h1
              obtain ⟨hp, hsz⟩ := h1
              subst hp
              subst hsz
              subst h2
              refine ⟨by revert hauth; cases authCheck token authHeader <;> simp, rfl, ?_,
                rfl, dirSegs, pathSegs, fs1, hdir, hpath, hmk, hw⟩
              revert hguard
              cases isPathInside baseDir
                (uploadTargetPath baseDir (jOr body.filename (JVal.str "")).toStr
                  (jOr body.dir (JVal.str ""))) <;> simp
        · simp at h

/-! ## C3: containment failure means InvalidPath and no I/O -/

/-- C3: an authorized upload request with a valid filename whose
constructed target fails the path guard answers 400 Invalid path with
the filesystem returned unchanged, and an authorized read request whose
resolved candidate fails the guard answers 400 Invalid path for every
filesystem (the result does not consult the filesystem at all, so no
read, write, directory creation or stat happens). -/
theorem c3_invalid_path_no_io (baseDir token : String) (authHeader : Option String)
    (body : UploadBody) (pathParam : Option String) (fs : FSTree) (now : Nat) :
    (authCheck token authHeader = true →
      (jOr body.filename (.str "")).truthy = true →
      (jOr body.filename (.str "")).isString = true →
      isPathInside baseDir
          (uploadTargetPath baseDir (jOr body.filename (.str "")).toStr
            (jOr body.dir (.str ""))) = false →
      handleUpload baseDir token authHeader body fs now = (.invalidPath, fs)) ∧
    (authCheck token authHeader = true →
      strIsEmpty (stripLeadingSlashes (pathParam.getD "")) = false →
      isPathInside baseDir
          (resolveAbs baseDir (stripLeadingSlashes (pathParam.getD ""))) = false →
      handleFile baseDir token authHeader pathParam fs = .invalidPath) := by
  constructor
  · intro hauth hfn hstr hguard
    simp only [handleUpload, hauth, hfn, hstr, hguard, Bool.not_true, Bool.false_or,
      Bool.not_false, if_false, if_true]
    rfl
  · intro hauth hempty hguard
    simp only [handleFile, hauth, Bool.not_true, if_false, hempty, hguard,
      Bool.not_false, if_true]
    rfl

/-- C3 witness: a concrete authorized read for `../secret` is rejected
as Invalid path on a concrete filesystem state that does hold a file
named `secret` one level above the root. -/
theorem c3_witness :
    handleFile "/data/uploads" "" none (some "../secret")
      (.dir (.cons "secret" (.file "s" 1) .nil)) = .invalidPath :=
  (c3_invalid_path_no_io "/data/uploads" "" none ⟨none, none, none⟩ (some "../secret")
    (.dir (.cons "secret" (.file "s" 1) .nil)) 0).2 (by decide) (by decide) (by decide)

/-! ## C2: the filename is stripped to its basename -/

/-- C2: the upload target is `resolve(resolve(root, dir), basename(filename))`,
so directory components of the supplied filename are discarded; in
particular, for any canonical absolute root, uploading with filename
`../../etc/passwd` targets `passwd` directly under the root, the guard
accepts it, and (for a root directory with no entry named `passwd`) the
write stores exactly the file `passwd` at the top of the root. -/
theorem c2_basename_strips_traversal (B : List (List Char)) (hB : Canon B)
    (token : String) (authHeader : Option String) (content? : Option JVal)
    (es : FSEntries) (now : Nat) :
    (∀ fn dirv, uploadTargetPath (mkAbs B) fn dirv =
      resolveAbs (resolveAbs (mkAbs B) (if JVal.truthy dirv then JVal.toStr dirv else ""))
        (basename fn)) ∧
    basename "../../etc/passwd" = "passwd" ∧
    uploadTargetPath (mkAbs B) "../../etc/passwd" (.str "") = mkAbs (B ++ ["passwd".toList]) ∧
    isPathInside (mkAbs B) (uploadTargetPath (mkAbs B) "../../etc/passwd" (.str "")) = true ∧
    (authCheck token authHeader = true →
      FSEntries.lookup es "passwd" = none →
      handleUpload (mkAbs B) token authHeader
          ⟨some (.str "../../etc/passwd"), content?, none⟩ (.dir es) now =
        (.uploadOk (mkAbs (B ++ ["passwd".toList])) (uploadContentStr content?).utf8ByteSize,
          .dir (es.setEntry "passwd" (.file (uploadContentStr content?) now)))) := by
  have hBmk : absSegs (mkAbs B) = B := absSegs_mkAbs B hB
  have htd : uploadTargetDir (mkAbs B) (JVal.str "") = mkAbs B := by
    unfold uploadTargetDir
    show resolveAbs (mkAbs B) "" = mkAbs B
    rw [resolveAbs_empty, hBmk]
  have htp : uploadTargetPath (mkAbs B) "../../etc/passwd" (.str "") =
      mkAbs (B ++ ["passwd".toList]) := by
    unfold uploadTargetPath
    rw [htd]
    show resolveAbs (mkAbs B) "passwd" = _
    rw [resolveAbs_single (mkAbs B) "passwd" (by decide), hBmk]
  have hguard : isPathInside (mkAbs B) (uploadTargetPath (mkAbs B) "../../etc/passwd" (.str "")) = true := by
    rw [htp]
    have h0 := isPathInside_append (mkAbs B) ["passwd".toList] (by decide) (by simp) (by decide)
    rwa [hBmk] at h0
  refine ⟨fun fn dirv => rfl, by decide, htp, hguard, ?_⟩
  intro hauth hlook
  have hfn : jOr (some (JVal.str "../../etc/passwd")) (JVal.str "") =
      JVal.str "../../etc/passwd" := by decide
  have h1 : (JVal.str "../../etc/passwd").toStr = "../../etc/passwd" := rfl
  have hT : (JVal.str "../../etc/passwd").truthy = true := rfl
  have hS : (JVal.str "../../etc/passwd").isString = true := rfl
  have hrd : relToBase (mkAbs B) (uploadTargetDir (mkAbs B) (JVal.str "")) = some [] := by
    rw [htd]
    have h0 := relToBase_append (mkAbs B) [] (by intro s hs; simp at hs)
    rw [List.append_nil, hBmk] at h0
    simpa using h0
  have hrp : relToBase (mkAbs B) (mkAbs (B ++ ["passwd".toList])) = some ["passwd"] := by
    have h0 := relToBase_append (mkAbs B) ["passwd".toList] (by decide)
    rw [hBmk] at h0
    simpa using h0
  have hguard₂ : isPathInside (mkAbs B) (mkAbs (B ++ ["passwd".toList])) = true := by
    rwa [htp] at hguard
  have hmk : mkdirp (.dir es) [] = some (.dir es) := rfl
  have hw : writeFileAt (.dir es) ["passwd"] (uploadContentStr content?) now =
      some (.dir (es.setEntry "passwd" (.file (uploadContentStr content?) now))) := by
    rw [writeFileAt_single, hlook]
  simp only [handleUpload, hauth, Bool.not_true, hfn, jOr_none, h1, hT, hS,
    Bool.or_self, if_false, htp, hguard₂, hrd, hrp, hmk, hw]
  rfl

/-- C2 witness: the concrete traversal upload at root `/data/uploads`
stores `passwd` at the top of the root. -/
theorem c2_witness :
    handleUpload "/data/uploads" "" none
        ⟨some (.str "../../etc/passwd"), some (.str "X"), none⟩ (.dir .nil) 7 =
      (.uploadOk "/data/uploads/passwd" 1, .dir (.cons "passwd" (.file "X" 7) .nil)) := by
  have h := (c2_basename_strips_traversal [['d', 'a', 't', 'a'], ['u', 'p', 'l', 'o', 'a', 'd', 's']]
    (by decide) "" none (some (.str "X")) .nil 7).2.2.2.2 rfl rfl
  exact h

/-! ## C5: write-then-read round trip -/

/-- C5: for every filename and every content string X, if an upload of
`{filename, content: X}` succeeds against a canonical absolute storage
root, then reading the stored relative path (the path of the stored
file relative to the root) under the same credentials returns content X
byte-for-byte. -/
theorem c5_round_trip (B : List (List Char)) (hB : Canon B)
    (token : String) (authHeader : Option String) (fn X : String) (d : Option JVal)
    (fs : FSTree) (now : Nat) (p : String) (sz : Nat) (fs' : FSTree)
    (h : handleUpload (mkAbs B) token authHeader ⟨some (.str fn), some (.str X), d⟩ fs now
      = (.uploadOk p sz, fs')) :
    handleFile (mkAbs B) token authHeader (some (relative (mkAbs B) p)) fs' =
      .fileOk (basename p) (relative (mkAbs B) p) X := by
  obtain ⟨hauth, hp, hguard, hsz, dirSegs, pathSegs, fs1, hrd, hrp, hmk, hw⟩ :=
    handleUpload_ok_inv _ _ _ _ _ _ _ _ _ h
  have hBmk : absSegs (mkAbs B) = B := absSegs_mkAbs B hB
  have hpmk : p = mkAbs (absSegs p) := by
    rw [hp]
    exact resolveAbs_eq_mkAbs _ _
  have hguardKeep := hguard
  rw [isPathInside_iff, hBmk] at hguard
  obtain ⟨⟨r, hr⟩, hne, -⟩ := hguard
  have hrcanon : Canon r := fun s hs => absSegs_canon p s (hr ▸ List.mem_append_right B hs)
  have hrne : r ≠ [] := by
    rintro rfl
    exact hne (by rw [← hr, List.append_nil])
  have hrel : relative (mkAbs B) p = String.mk (joinChars r) := by
    have h0 := relative_append (mkAbs B) r hrcanon
    rw [hBmk, hr, ← hpmk] at h0
    exact h0
  have habs : resolveAbs (mkAbs B) (String.mk (joinChars r)) = p := by
    rw [resolveAbs_relJoin _ r hrcanon, hBmk, hr, ← hpmk]
  have hread : readFileAt fs' pathSegs = some (uploadContentStr (some (.str X))) :=
    writeFileAt_readFileAt pathSegs fs1 _ now fs' hw
  simp only [handleFile, hauth, Bool.not_true, if_false, Option.getD_some, hrel,
    stripLeadingSlashes_joinChars r hrcanon, strIsEmpty_joinChars r hrcanon hrne,
    habs, hguardKeep, hrp, hread, uploadContentStr_str]
  rfl

/-- C5 witness: the round trip at a concrete root, filename and
content. -/
theorem c5_witness :
    handleFile "/data/uploads" "" none
        (some (relative "/data/uploads" "/data/uploads/a.drawnix"))
        (.dir (.cons "a.drawnix" (.file "X" 7) .nil)) =
      .fileOk (basename "/data/uploads/a.drawnix")
        (relative "/data/uploads" "/data/uploads/a.drawnix") "X" := by
  exact c5_round_trip [['d', 'a', 't', 'a'], ['u', 'p', 'l', 'o', 'a', 'd', 's']] (by decide)
    "" none "a.drawnix" "X" none (.dir .nil) 7 "/data/uploads/a.drawnix" 1
    (.dir (.cons "a.drawnix" (.file "X" 7) .nil)) (by rfl)

/-! ## C9: only the filename is validated -/

/-- C9: only the filename field is validated (the sole MissingField
message the upload route can produce is `filename required`); an
absent, empty or otherwise falsy content value is written as the empty
string; a truthy non-string content value is coerced with
JavaScript's `String(...)`; and on success the reported size is the
UTF-8 byte length of the coerced string, which is also exactly what is
stored on disk. -/
theorem c9_content_lenient (baseDir token : String) (authHeader : Option String)
    (body : UploadBody) (fs : FSTree) (now : Nat) :
    uploadContentStr none = "" ∧
    (∀ c, JVal.truthy c = false → uploadContentStr (some c) = "") ∧
    (∀ c, JVal.truthy c = true → uploadContentStr (some c) = JVal.toStr c) ∧
    (∀ msg fs₂, handleUpload baseDir token authHeader body fs now = (.missingField msg, fs₂) →
      msg = "filename required") ∧
    (∀ p sz fs', handleUpload baseDir token authHeader body fs now = (.uploadOk p sz, fs') →
      sz = (uploadContentStr body.content).utf8ByteSize ∧
      ∀ segs, relToBase baseDir p = some segs →
        readFileAt fs' segs = some (uploadContentStr body.content)) := by
  refine ⟨rfl, uploadContentStr_falsy, uploadContentStr_truthy, ?_, ?_⟩
  · intro msg fs₂ h
    simp only [handleUpload] at h
    split at h
    · simp at h
    · split at h
      · rw [Prod.mk.injEq, ApiResult.missingField.injEq] at h
        exact h.1.symm
      · split at h
        · simp at h
        · split at h
          · split at h
            · simp at h
            · split at h
              · simp at h
              · simp at h
          · simp at h
  · intro p sz fs' h
    obtain ⟨-, -, -, hsz, -, pathSegs, fs1, -, hrp, -, hw⟩ :=
      handleUpload_ok_inv _ _ _ _ _ _ _ _ _ h
    refine ⟨hsz, ?_⟩
    intro segs hsegs
    rw [hrp, Option.some_inj] at hsegs
    subst hsegs
    exact writeFileAt_readFileAt pathSegs fs1 _ now fs' hw

/-- C9 witness: a falsy numeric content value (0) is stored as the
empty string, and a truthy numeric content value is coerced to its
decimal form. -/
theorem c9_witness :
    uploadContentStr (some (.num 0)) = "" ∧ uploadContentStr (some (.num 42)) = "42" := by
  constructor
  · exact (c9_content_lenient "/r" "" none ⟨none, none, none⟩ (.dir .nil) 0).2.1
      (.num 0) (by decide)
  · exact ((c9_content_lenient "/r" "" none ⟨none, none, none⟩ (.dir .nil) 0).2.2.1
      (.num 42) (by decide)).trans (by decide)

/-! ## Listing: path arithmetic along the walk -/

theorem joinChars_concat (l : List (List Char)) (x : List Char) (hl : l ≠ []) :
    joinChars (l ++ [x]) = joinChars l ++ '/' :: x := by
  induction l with
  | nil => exact absurd rfl hl
  | cons s rest ih =>
    cases rest with
    | nil => rfl
    | cons t r =>
      show s ++ '/' :: joinChars ((t :: r) ++ [x]) = joinChars (s :: t :: r) ++ '/' :: x
      rw [ih (by simp), joinChars_cons₂, List.append_assoc]
      rfl

theorem dropWhile_all {α : Type} (p : α → Bool) (a b : List α)
    (h : ∀ c ∈ a, p c = true) :
    List.dropWhile p (a ++ b) = List.dropWhile p b := by
  induction a with
  | nil => rfl
  | cons c rest ih =>
    rw [List.cons_append, List.dropWhile_cons, if_pos (h c (List.mem_cons_self c rest))]
    exact ih (fun c hc => h c (List.mem_cons_of_mem _ hc))

theorem joinChars_ne_nil_canon (l : List (List Char)) (hl : Canon l) (hne : l ≠ []) :
    joinChars l ≠ [] := by
  cases l with
  | nil => exact absurd rfl hne
  | cons h t => exact joinChars_ne_nil h t (hl h (List.mem_cons_self h t)).1

theorem dirname_joinChars_concat (l : List (List Char)) (x : List Char)
    (hl : Canon l) (hx : ValidSeg x) :
    dirname (String.mk (joinChars (l ++ [x]))) =
      if l = [] then "." else String.mk (joinChars l) := by
  obtain ⟨hx1, hx2, hx3, hx4⟩ := hx
  cases l with
  | nil =>
    rw [if_pos rfl]
    show dirname (String.mk x) = "."
    unfold dirname
    show (let cs := x
      let hasRoot := cs.head? = some '/'
      let trimmed := (cs.reverse.dropWhile (· = '/')).reverse
      if trimmed.contains '/' then
        let pre := ((trimmed.reverse.dropWhile (· ≠ '/')).reverse).dropLast
        if pre = [] then (if hasRoot then "/" else ".") else String.mk pre
      else if hasRoot then "/" else ".") = "."
    have htrim : (x.reverse.dropWhile (fun c => decide (c = '/'))).reverse = x := by
      cases hxr : x.reverse with
      | nil =>
        rw [List.dropWhile_nil, ← hxr, List.reverse_reverse]
      | cons c cs =>
        have hc : c ∈ x := List.mem_reverse.mp (hxr ▸ List.mem_cons_self c cs)
        rw [List.dropWhile_cons,
          if_neg (by simp only [decide_eq_true_eq]; exact fun hcc => hx4 (hcc ▸ hc)),
          ← hxr, List.reverse_reverse]
    simp only [htrim]
    rw [if_neg (by
      intro hcon
      exact hx4 (List.elem_iff.mp hcon))]
    rw [if_neg (by
      intro hroot
      rcases hd : x.head? with _ | c
      · rw [hd] at hroot; cases hroot
      · rw [hd] at hroot
        have hc : c = '/' := by injection hroot
        exact hx4 (hc ▸ List.mem_of_mem_head? hd))]
  | cons s rest =>
    rw [if_neg (by simp)]
    have hlc : Canon (s :: rest) := hl
    have hjoin : joinChars ((s :: rest) ++ [x]) = joinChars (s :: rest) ++ '/' :: x :=
      joinChars_concat (s :: rest) x (by simp)
    unfold dirname
    show (let cs := joinChars ((s :: rest) ++ [x])
      let hasRoot := cs.head? = some '/'
      let trimmed := (cs.reverse.dropWhile (· = '/')).reverse
      if trimmed.contains '/' then
        let pre := ((trimmed.reverse.dropWhile (· ≠ '/')).reverse).dropLast
        if pre = [] then (if hasRoot then "/" else ".") else String.mk pre
      else if hasRoot then "/" else ".") = String.mk (joinChars (s :: rest))
    have hrev : (joinChars ((s :: rest) ++ [x])).reverse =
        x.reverse ++ '/' :: (joinChars (s :: rest)).reverse := by
      rw [hjoin, List.reverse_append, List.reverse_cons, List.append_assoc]
      rfl
    have htrim : ((joinChars ((s :: rest) ++ [x])).reverse.dropWhile (· = '/')).reverse =
        joinChars ((s :: rest) ++ [x]) := by
      rw [hrev]
      cases hxr : x.reverse with
      | nil => exact absurd (by rw [← List.reverse_reverse x, hxr]; rfl) hx1
      | cons c cs =>
        have hc : c ∈ x := List.mem_reverse.mp (hxr ▸ List.mem_cons_self c cs)
        rw [List.cons_append, List.dropWhile_cons,
          if_neg (by simp only [decide_eq_true_eq]; exact fun hcc => hx4 (hcc ▸ hc)),
          ← List.cons_append, ← hxr, ← hrev, List.reverse_reverse]
    simp only [htrim]
    rw [if_pos (by
      refine List.elem_iff.mpr ?_
      rw [hjoin]
      exact List.mem_append_right _ (List.mem_cons_self '/' x))]
    have hpre : (((joinChars ((s :: rest) ++ [x])).reverse.dropWhile (· ≠ '/')).reverse).dropLast =
        joinChars (s :: rest) := by
      rw [hrev, dropWhile_all _ x.reverse _ (by
        intro c hc
        simp only [decide_eq_true_eq]
        exact fun hcc => hx4 (hcc ▸ List.mem_reverse.mp hc))]
      rw [List.dropWhile_cons, if_neg (by simp)]
      rw [List.reverse_cons, List.reverse_reverse, List.dropLast_concat]
    rw [hpre]
    rw [if_neg (joinChars_ne_nil_canon (s :: rest) hlc (by simp))]

theorem relJoin_ne_dot (l : List (List Char)) (hl : Canon l) (hne : l ≠ []) :
    String.mk (joinChars l) ≠ "." := by
  intro h
  have hdata : joinChars l = ['.'] := congrArg String.data h
  cases l with
  | nil => exact hne rfl
  | cons s rest =>
    obtain ⟨h1, h2, -, -⟩ := hl s (List.mem_cons_self s rest)
    cases rest with
    | nil => exact h2 hdata
    | cons t r =>
      rw [joinChars_cons₂] at hdata
      cases s with
      | nil => exact h1 rfl
      | cons c cs =>
        rw [List.cons_append] at hdata
        injection hdata with hc htail
        simp at htail

theorem absSegs_concat_single (a name : String) (hn : ValidName name) :
    absSegs (a ++ "/" ++ name) = absSegs a ++ [name.toList] := by
  have h0 := absSegs_relJoin_concat a [name.toList]
    (by intro seg hseg; rw [List.mem_singleton] at hseg; exact hseg ▸ hn)
  exact h0

theorem pathJoin_mkAbs (l : List (List Char)) (hl : Canon l) (name : String)
    (hn : ValidName name) : pathJoin (mkAbs l) name = mkAbs (l ++ [name.toList]) := by
  unfold pathJoin
  rw [absSegs_concat_single _ name hn, absSegs_mkAbs l hl]

theorem relative_mkAbs_concat (B r : List (List Char)) (hB : Canon B) (hr : Canon r) :
    relative (mkAbs B) (mkAbs (B ++ r)) = String.mk (joinChars r) := by
  have h0 := relative_append (mkAbs B) r hr
  rwa [absSegs_mkAbs B hB] at h0

/-! ## Listing: the bridge between the code walk and the segment walk -/

theorem listEntries_cons_dir (dirPath base name : String) (es' : FSEntries) (rest : FSEntries) :
    listEntries dirPath base (.cons name (.dir es') rest) =
      listDrawnixFiles (pathJoin dirPath name) base (.dir es') ++
        listEntries dirPath base rest := rfl

theorem listEntries_cons_file (dirPath base name content : String) (mtime : Nat)
    (rest : FSEntries) :
    listEntries dirPath base (.cons name (.file content mtime) rest) =
      (if strEndsWith name ".drawnix" = true then
        [{ name := name,
           relativePath := relative base (pathJoin dirPath name),
           dir := if dirname (relative base (pathJoin dirPath name)) = "." then ""
                  else dirname (relative base (pathJoin dirPath name)),
           size := content.utf8ByteSize, mtime := mtime }]
       else []) ++ listEntries dirPath base rest := rfl

theorem listEntries_cons_symlink (dirPath base name target : String) (rest : FSEntries) :
    listEntries dirPath base (.cons name (.symlink target) rest) =
      listEntries dirPath base rest := rfl

theorem drawnixEntries_cons_dir (pre : List String) (name : String) (es' : FSEntries)
    (rest : FSEntries) :
    drawnixEntries pre (.cons name (.dir es') rest) =
      drawnixList (pre ++ [name]) (.dir es') ++ drawnixEntries pre rest := rfl

theorem drawnixEntries_cons_file (pre : List String) (name content : String) (mtime : Nat)
    (rest : FSEntries) :
    drawnixEntries pre (.cons name (.file content mtime) rest) =
      (if strEndsWith name ".drawnix" = true then [(pre ++ [name], content, mtime)] else []) ++
        drawnixEntries pre rest := rfl

theorem drawnixEntries_cons_symlink (pre : List String) (name target : String)
    (rest : FSEntries) :
    drawnixEntries pre (.cons name (.symlink target) rest) =
      drawnixEntries pre rest := rfl

theorem canon_map_toList (pre : List String) (hpre : ∀ s ∈ pre, ValidName s) :
    Canon (pre.map String.toList) := by
  intro seg hseg
  obtain ⟨nm, hnm, rfl⟩ := List.mem_map.mp hseg
  exact hpre nm hnm

mutual
theorem listTree_eq_drawnix :
    ∀ (t : FSTree), FSTree.WF t →
      ∀ (B : List (List Char)), Canon B →
      ∀ (pre : List String), (∀ s ∈ pre, ValidName s) →
      listDrawnixFiles (mkAbs (B ++ pre.map String.toList)) (mkAbs B) t =
        (drawnixList pre t).map (fun x => mkDoc x.1 x.2.1 x.2.2)
  | .file c m, _, B, _, pre, _ => rfl
  | .symlink tg, _, B, _, pre, _ => rfl
  | .dir es, hwf, B, hB, pre, hpre => listEntries_eq_drawnix es hwf B hB pre hpre

theorem listEntries_eq_drawnix :
    ∀ (es : FSEntries), FSEntries.WF es →
      ∀ (B : List (List Char)), Canon B →
      ∀ (pre : List String), (∀ s ∈ pre, ValidName s) →
      listEntries (mkAbs (B ++ pre.map String.toList)) (mkAbs B) es =
        (drawnixEntries pre es).map (fun x => mkDoc x.1 x.2.1 x.2.2)
  | .nil, _, B, _, pre, _ => rfl
  | .cons name sub rest, hwf, B, hB, pre, hpre => by
    obtain ⟨hn, hnd, hsubwf, hrestwf⟩ := hwf
    have hrest := listEntries_eq_drawnix rest hrestwf B hB pre hpre
    have hpre' : ∀ s ∈ pre ++ [name], ValidName s := by
      intro s hs
      rcases List.mem_append.mp hs with h | h
      · exact hpre s h
      · rw [List.mem_singleton] at h
        exact h ▸ hn
    have hPre : Canon (B ++ pre.map String.toList) := by
      intro seg hseg
      rcases List.mem_append.mp hseg with h | h
      · exact hB seg h
      · exact canon_map_toList pre hpre seg h
    have hjoin : pathJoin (mkAbs (B ++ pre.map String.toList)) name =
        mkAbs (B ++ (pre ++ [name]).map String.toList) := by
      rw [pathJoin_mkAbs _ hPre name hn, List.map_append, List.append_assoc]
      rfl
    cases sub with
    | dir es' =>
      rw [listEntries_cons_dir, drawnixEntries_cons_dir, List.map_append, hjoin,
        listTree_eq_drawnix (.dir es') hsubwf B hB (pre ++ [name]) hpre', hrest]
    | symlink tg =>
      rw [listEntries_cons_symlink, drawnixEntries_cons_symlink, hrest]
    | file content mtime =>
      rw [listEntries_cons_file, drawnixEntries_cons_file, List.map_append, hrest, hjoin]
      have hrel : relative (mkAbs B) (mkAbs (B ++ (pre ++ [name]).map String.toList)) =
          relJoin (pre ++ [name]) :=
        relative_mkAbs_concat B ((pre ++ [name]).map String.toList) hB
          (canon_map_toList _ hpre')
      rw [hrel]
      by_cases hsuf : strEndsWith name ".drawnix" = true
      · rw [if_pos hsuf, if_pos hsuf, List.map_singleton]
        have hmap : (pre ++ [name]).map String.toList =
            pre.map String.toList ++ [name.toList] := by
          rw [List.map_append]
          rfl
        have hdirname : dirname (relJoin (pre ++ [name])) =
            if pre.map String.toList = [] then "." else String.mk (joinChars (pre.map String.toList)) := by
          show dirname (String.mk (joinChars ((pre ++ [name]).map String.toList))) = _
          rw [hmap]
          exact dirname_joinChars_concat (pre.map String.toList) name.toList
            (canon_map_toList pre hpre) hn
        refine congrArg (fun z => z ++ _) (congrArg (fun z => [z]) ?_)
        show _ = mkDoc (pre ++ [name]) content mtime
        unfold mkDoc
        rw [StoredDoc.mk.injEq]
        refine ⟨(List.getLastD_concat _ _ _).symm, rfl, ?_, rfl, rfl⟩
        rw [List.dropLast_concat, hdirname]
        by_cases hpe : pre = []
        · subst hpe
          rfl
        · have hmapne : pre.map String.toList ≠ [] := by simpa using hpe
          rw [if_neg hmapne, if_neg hpe,
            if_neg (relJoin_ne_dot (pre.map String.toList) (canon_map_toList pre hpre) hmapne)]
          rfl
      · rw [if_neg hsuf, if_neg hsuf]
        rfl
end

/-! ## Listing: membership characterization -/

theorem hasFile_file_iff (c : String) (m : Nat) (p : List String) (c' : String) (m' : Nat) :
    HasFile (.file c m) p c' m' ↔ p = [] ∧ c' = c ∧ m' = m := by
  constructor
  · intro h
    cases h
    exact ⟨rfl, rfl, rfl⟩
  · rintro ⟨rfl, rfl, rfl⟩
    exact HasFile.here _ _

theorem hasFile_symlink (target : String) (p : List String) (c : String) (m : Nat) :
    ¬ HasFile (.symlink target) p c m := by
  intro h
  cases h

theorem hasFile_dir_nil (p : List String) (c : String) (m : Nat) :
    ¬ HasFile (.dir .nil) p c m := by
  intro h
  cases h with
  | step hmem _ => simp [FSEntries.toList] at hmem

theorem hasFile_cons_iff (n₀ : String) (s₀ : FSTree) (r : FSEntries)
    (p : List String) (c : String) (m : Nat) :
    HasFile (.dir (.cons n₀ s₀ r)) p c m ↔
      (∃ p', p = n₀ :: p' ∧ HasFile s₀ p' c m) ∨ HasFile (.dir r) p c m := by
  constructor
  · intro h
    cases h with
    | step hmem hsub =>
      rename_i n sub p'
      rcases List.mem_cons.mp hmem with heq | hmem'
      · rw [Prod.mk.injEq] at heq
        obtain ⟨rfl, rfl⟩ := heq
        exact Or.inl ⟨p', rfl, hsub⟩
      · exact Or.inr (HasFile.step hmem' hsub)
  · rintro (⟨p', rfl, hsub⟩ | h)
    · exact HasFile.step (List.mem_cons_self _ _) hsub
    · cases h with
      | step hmem hsub => exact HasFile.step (List.mem_cons_of_mem _ hmem) hsub

theorem hasFile_dir_ne_nil (es : FSEntries) (p : List String) (c : String) (m : Nat)
    (h : HasFile (.dir es) p c m) : p ≠ [] := by
  cases h with
  | step hmem hsub => simp

theorem getLastD_cons_of_ne_nil (a : String) (p : List String) (hp : p ≠ []) (d : String) :
    (a :: p).getLastD d = p.getLastD d := by
  cases p with
  | nil => exact absurd rfl hp
  | cons b q => rfl

mutual
theorem mem_drawnixList :
    ∀ (t : FSTree) (pre : List String) (x : List String × String × Nat),
      x ∈ drawnixList pre t ↔
        ∃ p c m, HasFile t p c m ∧ p ≠ [] ∧
          strEndsWith (p.getLastD "") ".drawnix" = true ∧ x = (pre ++ p, c, m)
  | .file c m, pre, x => by
    simp only [drawnixList, List.not_mem_nil, false_iff]
    rintro ⟨p, c', m', hf, hne, -, -⟩
    rw [hasFile_file_iff] at hf
    exact hne hf.1
  | .symlink tg, pre, x => by
    simp only [drawnixList, List.not_mem_nil, false_iff]
    rintro ⟨p, c', m', hf, -, -, -⟩
    exact hasFile_symlink tg p c' m' hf
  | .dir es, pre, x => mem_drawnixEntries es pre x

theorem mem_drawnixEntries :
    ∀ (es : FSEntries) (pre : List String) (x : List String × String × Nat),
      x ∈ drawnixEntries pre es ↔
        ∃ p c m, HasFile (.dir es) p c m ∧ p ≠ [] ∧
          strEndsWith (p.getLastD "") ".drawnix" = true ∧ x = (pre ++ p, c, m)
  | .nil, pre, x => by
    simp only [drawnixEntries, List.not_mem_nil, false_iff]
    rintro ⟨p, c', m', hf, -, -, -⟩
    exact hasFile_dir_nil p c' m' hf
  | .cons name sub rest, pre, x => by
    have hrest := mem_drawnixEntries rest pre x
    cases sub with
    | file c₀ m₀ =>
      rw [drawnixEntries_cons_file, List.mem_append]
      constructor
      · intro hx
        rcases hx with hx | hx
        · by_cases hsuf : strEndsWith name ".drawnix" = true
          · rw [if_pos hsuf, List.mem_singleton] at hx
            exact ⟨[name], c₀, m₀,
              (hasFile_cons_iff _ _ _ _ _ _).mpr (Or.inl ⟨[], rfl, HasFile.here c₀ m₀⟩),
              by simp, by simpa using hsuf, hx⟩
          · rw [if_neg hsuf] at hx
            simp at hx
        · obtain ⟨p, c', m', hf, hne, hsu, hxe⟩ := hrest.mp hx
          exact ⟨p, c', m', (hasFile_cons_iff _ _ _ _ _ _).mpr (Or.inr hf), hne, hsu, hxe⟩
      · rintro ⟨p, c', m', hf, hne, hsu, hxe⟩
        rcases (hasFile_cons_iff _ _ _ _ _ _).mp hf with ⟨p', rfl, hsub⟩ | hf'
        · rw [hasFile_file_iff] at hsub
          obtain ⟨rfl, rfl, rfl⟩ := hsub
          left
          rw [if_pos (by simpa using hsu), List.mem_singleton]
          exact hxe
        · exact Or.inr (hrest.mpr ⟨p, c', m', hf', hne, hsu, hxe⟩)
    | symlink tg =>
      rw [drawnixEntries_cons_symlink]
      constructor
      · intro hx
        obtain ⟨p, c', m', hf, hne, hsu, hxe⟩ := hrest.mp hx
        exact ⟨p, c', m', (hasFile_cons_iff _ _ _ _ _ _).mpr (Or.inr hf), hne, hsu, hxe⟩
      · rintro ⟨p, c', m', hf, hne, hsu, hxe⟩
        rcases (hasFile_cons_iff _ _ _ _ _ _).mp hf with ⟨p', rfl, hsub⟩ | hf'
        · exact absurd hsub (hasFile_symlink tg p' c' m')
        · exact hrest.mpr ⟨p, c', m', hf', hne, hsu, hxe⟩
    | dir es' =>
      rw [drawnixEntries_cons_dir, List.mem_append]
      constructor
      · intro hx
        rcases hx with hx | hx
        · obtain ⟨p', c', m', hf, hne, hsu, hxe⟩ :=
            (mem_drawnixList (.dir es') (pre ++ [name]) x).mp hx
          refine ⟨name :: p', c', m',
            (hasFile_cons_iff _ _ _ _ _ _).mpr (Or.inl ⟨p', rfl, hf⟩), by simp, ?_, ?_⟩
          · rwa [getLastD_cons_of_ne_nil name p' hne]
          · rw [hxe, List.append_assoc]
            rfl
        · obtain ⟨p, c', m', hf, hne, hsu, hxe⟩ := hrest.mp hx
          exact ⟨p, c', m', (hasFile_cons_iff _ _ _ _ _ _).mpr (Or.inr hf), hne, hsu, hxe⟩
      · rintro ⟨p, c', m', hf, hne, hsu, hxe⟩
        rcases (hasFile_cons_iff _ _ _ _ _ _).mp hf with ⟨p', rfl, hsub⟩ | hf'
        · left
          have hne' : p' ≠ [] := hasFile_dir_ne_nil es' p' c' m' hsub
          refine (mem_drawnixList (.dir es') (pre ++ [name]) x).mpr
            ⟨p', c', m', hsub, hne', ?_, ?_⟩
          · rwa [getLastD_cons_of_ne_nil name p' hne'] at hsu
          · rw [hxe, List.append_assoc]
            rfl
        · exact Or.inr (hrest.mpr ⟨p, c', m', hf', hne, hsu, hxe⟩)
end

/-! ## Listing: uniqueness of relative paths -/

theorem names_eq_toList_map : ∀ (es : FSEntries), es.names = es.toList.map Prod.fst
  | .nil => rfl
  | .cons n t r => by
    show n :: FSEntries.names r = n :: r.toList.map Prod.fst
    rw [names_eq_toList_map r]

theorem drawnixEntries_path_shape (es : FSEntries) (pre : List String)
    (x : List String × String × Nat) (hx : x ∈ drawnixEntries pre es) :
    ∃ n q, n ∈ FSEntries.names es ∧ x.1 = pre ++ n :: q := by
  obtain ⟨p, c, m, hf, hne, -, hxe⟩ := (mem_drawnixEntries es pre x).mp hx
  cases hf with
  | step hmem hsub =>
    rename_i n sub p'
    refine ⟨n, p', ?_, by rw [hxe]⟩
    rw [names_eq_toList_map]
    exact List.mem_map.mpr ⟨(n, sub), hmem, rfl⟩

theorem drawnixList_path_shape (t : FSTree) (pre : List String)
    (x : List String × String × Nat) (hx : x ∈ drawnixList pre t) :
    ∃ q, q ≠ [] ∧ x.1 = pre ++ q := by
  obtain ⟨p, c, m, -, hne, -, hxe⟩ := (mem_drawnixList t pre x).mp hx
  exact ⟨p, hne, by rw [hxe]⟩

mutual
theorem nodup_drawnixList : ∀ (t : FSTree), FSTree.WF t → ∀ (pre : List String),
    ((drawnixList pre t).map (fun x => x.1)).Nodup
  | .file c m, _, pre => by simp [drawnixList]
  | .symlink tg, _, pre => by simp [drawnixList]
  | .dir es, hwf, pre => nodup_drawnixEntries es hwf pre

theorem nodup_drawnixEntries : ∀ (es : FSEntries), FSEntries.WF es → ∀ (pre : List String),
    ((drawnixEntries pre es).map (fun x => x.1)).Nodup
  | .nil, _, pre => by simp [drawnixEntries]
  | .cons name sub rest, hwf, pre => by
    obtain ⟨hn, hnd, hsubwf, hrestwf⟩ := hwf
    have hrest := nodup_drawnixEntries rest hrestwf pre
    cases sub with
    | dir es' =>
      rw [drawnixEntries_cons_dir, List.map_append, List.nodup_append]
      refine ⟨nodup_drawnixList (.dir es') hsubwf (pre ++ [name]), hrest, ?_⟩
      intro a ha hb
      obtain ⟨x, hx, rfl⟩ := List.mem_map.mp ha
      obtain ⟨y, hy, hy1⟩ := List.mem_map.mp hb
      obtain ⟨q, -, hxq⟩ := drawnixList_path_shape (.dir es') (pre ++ [name]) x hx
      obtain ⟨n', q', hn', hyq⟩ := drawnixEntries_path_shape rest pre y hy
      have hEq : pre ++ n' :: q' = pre ++ name :: q := by
        rw [← hyq, hy1, hxq, List.append_assoc]
        rfl
      have hc := List.append_cancel_left hEq
      injection hc with h1 _
      exact hnd (h1 ▸ hn')
    | file c₀ m₀ =>
      rw [drawnixEntries_cons_file]
      by_cases hsuf : strEndsWith name ".drawnix" = true
      · rw [if_pos hsuf, List.singleton_append, List.map_cons, List.nodup_cons]
        refine ⟨?_, hrest⟩
        intro hmem
        obtain ⟨y, hy, hy1⟩ := List.mem_map.mp hmem
        obtain ⟨n', q', hn', hyq⟩ := drawnixEntries_path_shape rest pre y hy
        rw [hyq] at hy1
        have := List.append_cancel_left hy1
        injection this with h1 _
        exact hnd (h1 ▸ hn')
      · rw [if_neg hsuf, List.nil_append]
        exact hrest
    | symlink tg =>
      rw [drawnixEntries_cons_symlink]
      exact hrest
end

theorem toList_inj (s t : String) (h : s.toList = t.toList) : s = t := by
  cases s
  cases t
  exact congrArg String.mk h

theorem relJoin_inj_on (p q : List String) (hp : p ≠ []) (hq : q ≠ [])
    (hvp : ∀ s ∈ p, ValidName s) (hvq : ∀ s ∈ q, ValidName s)
    (h : relJoin p = relJoin q) : p = q := by
  have hdata : joinChars (p.map String.toList) = joinChars (q.map String.toList) :=
    congrArg String.data h
  have hsp := splitChars_joinChars (p.map String.toList) (by simpa using hp)
    (fun seg hseg => by
      obtain ⟨nm, hnm, rfl⟩ := List.mem_map.mp hseg
      exact (hvp nm hnm).2.2.2)
  have hsq := splitChars_joinChars (q.map String.toList) (by simpa using hq)
    (fun seg hseg => by
      obtain ⟨nm, hnm, rfl⟩ := List.mem_map.mp hseg
      exact (hvq nm hnm).2.2.2)
  have hmap : p.map String.toList = q.map String.toList := by
    rw [← hsp, ← hsq, hdata]
  exact List.map_injective_iff.mpr toList_inj hmap

theorem wf_mem_entries : ∀ (es : FSEntries), FSEntries.WF es →
    ∀ {n : String} {sub : FSTree}, (n, sub) ∈ es.toList → ValidName n ∧ FSTree.WF sub
  | .nil, _, n, sub, h => by simp [FSEntries.toList] at h
  | .cons n₀ s₀ r, hwf, n, sub, h => by
    obtain ⟨hn, -, hsw, hrw⟩ := hwf
    rcases List.mem_cons.mp h with heq | h'
    · rw [Prod.mk.injEq] at heq
      obtain ⟨rfl, rfl⟩ := heq
      exact ⟨hn, hsw⟩
    · exact wf_mem_entries r hrw h'

theorem hasFile_names_valid {t : FSTree} {p : List String} {c : String} {m : Nat}
    (h : HasFile t p c m) : FSTree.WF t → ∀ s ∈ p, ValidName s := by
  induction h with
  | here => intro _ s hs; simp at hs
  | step hmem hsub ih =>
    intro hwf s hs
    obtain ⟨hn, hsubwf⟩ := wf_mem_entries _ hwf hmem
    rcases List.mem_cons.mp hs with rfl | hs'
    · exact hn
    · exact ih hsubwf s hs'

theorem nodup_relativePaths (B : List (List Char)) (hB : Canon B) (es : FSEntries)
    (hwf : FSTree.WF (.dir es)) :
    ((listDrawnixFiles (mkAbs B) (mkAbs B) (.dir es)).map StoredDoc.relativePath).Nodup := by
  have hbr := listTree_eq_drawnix (.dir es) hwf B hB [] (by simp)
  rw [show List.map String.toList ([] : List String) = [] from rfl, List.append_nil] at hbr
  rw [hbr, List.map_map]
  have hcomp : (StoredDoc.relativePath ∘ fun x : List String × String × Nat =>
      mkDoc x.1 x.2.1 x.2.2) = (relJoin ∘ fun x => x.1) := rfl
  rw [hcomp, ← List.map_map]
  have hpaths := nodup_drawnixList (.dir es) hwf []
  refine hpaths.map_on ?_
  intro a ha b hb hab
  obtain ⟨x, hx, rfl⟩ := List.mem_map.mp ha
  obtain ⟨y, hy, rfl⟩ := List.mem_map.mp hb
  obtain ⟨p, c, m, hfx, hnex, -, hxe⟩ := (mem_drawnixList _ [] x).mp hx
  obtain ⟨p', c', m', hfy, hney, -, hye⟩ := (mem_drawnixList _ [] y).mp hy
  rw [hxe, hye]
  show p = p'
  refine relJoin_inj_on p p' hnex hney
    (hasFile_names_valid hfx hwf) (hasFile_names_valid hfy hwf) ?_
  have hax : x.1 = p := by rw [hxe]; rfl
  have hay : y.1 = p' := by rw [hye]; rfl
  rw [hax, hay] at hab
  exact hab

/-! ## C6: the listing is exact -/

/-- C6: over a well-formed storage root (a directory whose entry names
are the kind `readdir` reports, unique per directory) at a canonical
absolute base, the recursive listing returns exactly the regular files
whose names end in `.drawnix`: a document is listed iff a regular file
with its content and mtime sits at its relative segment path and has
the suffix, and then its fields are the relative path, the parent
directory (empty string at root level), the byte size and the mtime;
the listed relative paths are pairwise distinct; and an empty root
yields the empty sequence. -/
theorem c6_list_exact (B : List (List Char)) (hB : Canon B) (es : FSEntries)
    (hwf : FSTree.WF (.dir es)) :
    (∀ doc, doc ∈ listDrawnixFiles (mkAbs B) (mkAbs B) (.dir es) ↔
      ∃ p c m, HasFile (.dir es) p c m ∧ p ≠ [] ∧
        strEndsWith (p.getLastD "") ".drawnix" = true ∧ doc = mkDoc p c m) ∧
    ((listDrawnixFiles (mkAbs B) (mkAbs B) (.dir es)).map StoredDoc.relativePath).Nodup ∧
    listDrawnixFiles (mkAbs B) (mkAbs B) (.dir .nil) = [] := by
  have hbr := listTree_eq_drawnix (.dir es) hwf B hB [] (by simp)
  rw [show List.map String.toList ([] : List String) = [] from rfl, List.append_nil] at hbr
  refine ⟨?_, nodup_relativePaths B hB es hwf, rfl⟩
  intro doc
  rw [hbr, List.mem_map]
  constructor
  · rintro ⟨x, hx, rfl⟩
    obtain ⟨p, c, m, hf, hne, hsu, hxe⟩ := (mem_drawnixList _ [] x).mp hx
    refine ⟨p, c, m, hf, hne, hsu, ?_⟩
    rw [hxe]
    rfl
  · rintro ⟨p, c, m, hf, hne, hsu, rfl⟩
    exact ⟨(p, c, m), (mem_drawnixList _ [] (p, c, m)).mpr ⟨p, c, m, hf, hne, hsu, by simp⟩, rfl⟩

/-- C6 witness: the exactness applied at a concrete root — the empty
root lists to the empty sequence, and a one-file root lists exactly
that document. -/
theorem c6_witness :
    listDrawnixFiles (mkAbs [['r']]) (mkAbs [['r']]) (.dir .nil) = [] ∧
    (mkDoc ["a.drawnix"] "hi" 3 ∈ listDrawnixFiles (mkAbs [['r']]) (mkAbs [['r']])
      (.dir (.cons "a.drawnix" (.file "hi" 3) .nil))) := by
  constructor
  · exact (c6_list_exact [['r']] (by decide) .nil trivial).2.2
  · refine ((c6_list_exact [['r']] (by decide)
      (.cons "a.drawnix" (.file "hi" 3) .nil) ?_).1 (mkDoc ["a.drawnix"] "hi" 3)).mpr
      ⟨["a.drawnix"], "hi", 3, ?_, by simp, by decide, rfl⟩
    · exact ⟨by decide, by simp [FSEntries.names], trivial, trivial⟩
    · exact HasFile.step (List.mem_cons_self _ _) (HasFile.here _ _)

/-! ## C10: symlink entries are skipped -/

mutual
theorem listTree_pruneSymlinks : ∀ (t : FSTree) (d b : String),
    listDrawnixFiles d b (FSTree.pruneSymlinks t) = listDrawnixFiles d b t
  | .file c m, d, b => rfl
  | .symlink tg, d, b => rfl
  | .dir es, d, b => listEntries_pruneSymlinks es d b

theorem listEntries_pruneSymlinks : ∀ (es : FSEntries) (d b : String),
    listEntries d b (FSEntries.pruneSymlinks es) = listEntries d b es
  | .nil, d, b => rfl
  | .cons name sub rest, d, b => by
    cases sub with
    | symlink tg =>
      show listEntries d b (FSEntries.pruneSymlinks rest) = _
      rw [listEntries_cons_symlink]
      exact listEntries_pruneSymlinks rest d b
    | file c m =>
      show listEntries d b (.cons name (.file c m) (FSEntries.pruneSymlinks rest)) = _
      rw [listEntries_cons_file, listEntries_cons_file, listEntries_pruneSymlinks rest d b]
    | dir es' =>
      show listEntries d b
          (.cons name (.dir (FSEntries.pruneSymlinks es')) (FSEntries.pruneSymlinks rest)) = _
      rw [listEntries_cons_dir, listEntries_cons_dir, listEntries_pruneSymlinks rest d b,
        show FSTree.dir (FSEntries.pruneSymlinks es') = FSTree.pruneSymlinks (.dir es') from rfl,
        listTree_pruneSymlinks (.dir es') (pathJoin d name) b]
end

/-- C10: a symlink entry is neither recursed into nor included — the
walk over a directory starting with a symlink entry equals the walk
with that entry removed, and in general listing a tree equals listing
its symlink-free pruning; the embedded walk is moreover a total
function of the finite directory tree, so it terminates on every such
tree regardless of where symlinks (including cyclic ones) appear. -/
theorem c10_symlink_skip (dirPath base name target : String) (rest : FSEntries) (t : FSTree) :
    listEntries dirPath base (.cons name (.symlink target) rest) =
      listEntries dirPath base rest ∧
    listDrawnixFiles dirPath base (FSTree.pruneSymlinks t) = listDrawnixFiles dirPath base t :=
  ⟨listEntries_cons_symlink dirPath base name target rest, listTree_pruneSymlinks t dirPath base⟩

/-! ## C7: error kinds and HTTP statuses -/

theorem upload_result_shape (baseDir token : String) (authHeader : Option String)
    (body : UploadBody) (fs : FSTree) (now : Nat) :
    (handleUpload baseDir token authHeader body fs now).1 = .unauthorized ∨
    (handleUpload baseDir token authHeader body fs now).1 = .missingField "filename required" ∨
    (handleUpload baseDir token authHeader body fs now).1 = .invalidPath ∨
    (handleUpload baseDir token authHeader body fs now).1 = .writeFailed ∨
    ∃ p sz, (handleUpload baseDir token authHeader body fs now).1 = .uploadOk p sz := by
  simp only [handleUpload]
  split
  · exact Or.inl rfl
  · split
    · exact Or.inr (Or.inl rfl)
    · split
      · exact Or.inr (Or.inr (Or.inl rfl))
      · split
        · split
          · exact Or.inr (Or.inr (Or.inr (Or.inl rfl)))
          · split
            · exact Or.inr (Or.inr (Or.inr (Or.inl rfl)))
            · exact Or.inr (Or.inr (Or.inr (Or.inr ⟨_, _, rfl⟩)))
        · exact Or.inr (Or.inr (Or.inr (Or.inl rfl)))

theorem file_result_shape (baseDir token : String) (authHeader : Option String)
    (pathParam : Option String) (fs : FSTree) :
    handleFile baseDir token authHeader pathParam fs = .unauthorized ∨
    handleFile baseDir token authHeader pathParam fs = .missingField "path required" ∨
    handleFile baseDir token authHeader pathParam fs = .invalidPath ∨
    handleFile baseDir token authHeader pathParam fs = .notFound ∨
    ∃ n rp ct, handleFile baseDir token authHeader pathParam fs = .fileOk n rp ct := by
  simp only [handleFile]
  split
  · exact Or.inl rfl
  · split
    · exact Or.inr (Or.inl rfl)
    · split
      · exact Or.inr (Or.inr (Or.inl rfl))
      · split
        · split
          · exact Or.inr (Or.inr (Or.inr (Or.inr ⟨_, _, _, rfl⟩)))
          · exact Or.inr (Or.inr (Or.inr (Or.inl rfl)))
        · exact Or.inr (Or.inr (Or.inr (Or.inl rfl)))

theorem files_result_shape (baseDir token : String) (authHeader : Option String)
    (fs : FSTree) :
    (handleFiles baseDir token authHeader fs).1 = .unauthorized ∨
    (handleFiles baseDir token authHeader fs).1 = .listFailed ∨
    ∃ fl, (handleFiles baseDir token authHeader fs).1 = .filesOk fl := by
  simp only [handleFiles]
  split
  · exact Or.inl rfl
  · split
    · exact Or.inr (Or.inr ⟨_, rfl⟩)
    · exact Or.inr (Or.inl rfl)

theorem handleFile_notFound (baseDir token : String) (authHeader : Option String)
    (pathParam : Option String) (fs : FSTree) (segs : List String)
    (hauth : authCheck token authHeader = true)
    (hempty : strIsEmpty (stripLeadingSlashes (pathParam.getD "")) = false)
    (hguard : isPathInside baseDir
      (resolveAbs baseDir (stripLeadingSlashes (pathParam.getD ""))) = true)
    (hrb : relToBase baseDir
      (resolveAbs baseDir (stripLeadingSlashes (pathParam.getD ""))) = some segs)
    (hread : readFileAt fs segs = none) :
    handleFile baseDir token authHeader pathParam fs = .notFound := by
  simp only [handleFile, hauth, Bool.not_true, if_false, hempty, hguard, Bool.not_false,
    hrb, hread]
  rfl

theorem handleFiles_listFailed (baseDir token : String) (authHeader : Option String)
    (fs : FSTree) (hauth : authCheck token authHeader = true) (hmk : mkdirp fs [] = none) :
    handleFiles baseDir token authHeader fs = (.listFailed, fs) := by
  simp only [handleFiles, hauth, Bool.not_true, if_false, hmk]
  rfl

/-- C7 (counterexample): the claim says every underlying read I/O error
yields 500 with kind ReadFailed, but the read route maps every read
error to 404 Not Found.  Concretely, reading path `d` where `d` exists
as a directory (an EISDIR I/O error: the target exists but cannot be
read) answers 404 Not Found. -/
theorem c7_counterexample :
    handleFile "/r" "" none (some "d") (.dir (.cons "d" (.dir .nil) .nil)) = .notFound ∧
    (handleFile "/r" "" none (some "d") (.dir (.cons "d" (.dir .nil) .nil))).status = 404 ∧
    ApiResult.notFound.status ≠ 500 := by
  decide

/-- C7 (amended): MissingField and InvalidPath answer 400, Unauthorized
401, NotFound 404, and underlying I/O errors in write and list answer
500 with kinds WriteFailed and ListFailed; the read operation answers
NotFound (404) whenever the target does not exist or cannot be read —
read I/O errors are reported as NotFound, never as a 500 kind.  Each
route can produce only its documented kinds. -/
theorem c7_error_statuses (baseDir token : String) (authHeader : Option String)
    (body : UploadBody) (pathParam : Option String) (fs : FSTree) (now : Nat)
    (segs : List String) :
    ((∀ msg, (ApiResult.missingField msg).status = 400) ∧
      ApiResult.invalidPath.status = 400 ∧
      ApiResult.unauthorized.status = 401 ∧
      ApiResult.notFound.status = 404 ∧
      ApiResult.writeFailed.status = 500 ∧
      ApiResult.listFailed.status = 500) ∧
    ((handleUpload baseDir token authHeader body fs now).1 = .unauthorized ∨
      (handleUpload baseDir token authHeader body fs now).1 = .missingField "filename required" ∨
      (handleUpload baseDir token authHeader body fs now).1 = .invalidPath ∨
      (handleUpload baseDir token authHeader body fs now).1 = .writeFailed ∨
      ∃ p sz, (handleUpload baseDir token authHeader body fs now).1 = .uploadOk p sz) ∧
    (handleFile baseDir token authHeader pathParam fs = .unauthorized ∨
      handleFile baseDir token authHeader pathParam fs = .missingField "path required" ∨
      handleFile baseDir token authHeader pathParam fs = .invalidPath ∨
      handleFile baseDir token authHeader pathParam fs = .notFound ∨
      ∃ n rp ct, handleFile baseDir token authHeader pathParam fs = .fileOk n rp ct) ∧
    ((handleFiles baseDir token authHeader fs).1 = .unauthorized ∨
      (handleFiles baseDir token authHeader fs).1 = .listFailed ∨
      ∃ fl, (handleFiles baseDir token authHeader fs).1 = .filesOk fl) ∧
    (authCheck token authHeader = true →
      strIsEmpty (stripLeadingSlashes (pathParam.getD "")) = false →
      isPathInside baseDir
        (resolveAbs baseDir (stripLeadingSlashes (pathParam.getD ""))) = true →
      relToBase baseDir
        (resolveAbs baseDir (stripLeadingSlashes (pathParam.getD ""))) = some segs →
      readFileAt fs segs = none →
      handleFile baseDir token authHeader pathParam fs = .notFound) ∧
    (authCheck token authHeader = true → mkdirp fs [] = none →
      handleFiles baseDir token authHeader fs = (.listFailed, fs)) :=
  ⟨⟨fun _ => rfl, rfl, rfl, rfl, rfl, rfl⟩,
    upload_result_shape baseDir token authHeader body fs now,
    file_result_shape baseDir token authHeader pathParam fs,
    files_result_shape baseDir token authHeader fs,
    handleFile_notFound baseDir token authHeader pathParam fs segs,
    handleFiles_listFailed baseDir token authHeader fs⟩

/-- C7 witness: reading a path that does not exist in a concrete root
answers NotFound. -/
theorem c7_witness :
    handleFile "/r" "" none (some "missing.drawnix") (.dir .nil) = .notFound :=
  (c7_error_statuses "/r" "" none ⟨none, none, none⟩ (some "missing.drawnix") (.dir .nil) 0
    ["missing.drawnix"]).2.2.2.2.1
    (by decide) (by decide) (by decide) (by decide) (by decide)

end Mind
